import Mathlib

/-!
Verification development for the hashline edit engine.

This file gives a shallow embedding, in Lean 4, of the core of the
hashline tool (a line-anchored text/JSON edit engine, written in Rust):
the 8-bit line hash (src/hash.rs), the anchor parser (src/parse.rs), the
model-quirk heuristics (src/heuristics.rs), the text edit engine and the
substring-replace engine (src/edit.rs), the JSON path+hash engine
(src/json.rs), and the hash CLI command output (src/main.rs).

Modelling conventions:
* Rust `String`/`&str` values are `List Char`; Rust byte buffers are
  `List Nat` (each element < 256).  Where Rust compares byte lengths
  (`String::len`), we use the UTF-8 byte length of the char list.
* Machine integers are `Nat` with explicit reduction `% 2^32` where the
  Rust code relies on `u32` wrapping (the xxHash32 computation).
* Fallible Rust code returns `Except`/`Option`.  A reachable Rust panic
  (out-of-bounds slice or `Vec::splice`) is modelled by `Option` with
  `none` denoting the panic.
* Hash-map/hash-set state is modelled by association lists; only lookup
  results ever reach observable behaviour in the source, so iteration
  order does not matter.
* Error messages built with `format!` in the source are carried as
  structured constructors holding the same data.
-/

namespace Hashline

/-! ## 32-bit arithmetic primitives and xxHash32 (dependency `xxhash_rust::xxh32`) -/

def m32 : Nat := 4294967296

def add32 (a b : Nat) : Nat := (a + b) % m32

def mul32 (a b : Nat) : Nat := (a * b) % m32

def rotl32 (x r : Nat) : Nat := (((x % m32) <<< r) % m32) ||| ((x % m32) >>> (32 - r))

def xxPrime1 : Nat := 2654435761
def xxPrime2 : Nat := 2246822519
def xxPrime3 : Nat := 3266489917
def xxPrime4 : Nat := 668265263
def xxPrime5 : Nat := 374761393

/-- Little-endian 32-bit word from four bytes. -/
def le32 (b0 b1 b2 b3 : Nat) : Nat := b0 + b1 * 256 + b2 * 65536 + b3 * 16777216

def xxh32Round (acc w : Nat) : Nat := mul32 (rotl32 (add32 acc (mul32 w xxPrime2)) 13) xxPrime1

/-- Process 16-byte stripes; returns the four accumulators and the unconsumed tail. -/
def xxh32Stripes : Nat → Nat → Nat → Nat → List Nat → Nat × Nat × Nat × Nat × List Nat
  | v1, v2, v3, v4,
      b0 :: b1 :: b2 :: b3 :: b4 :: b5 :: b6 :: b7 ::
      b8 :: b9 :: b10 :: b11 :: b12 :: b13 :: b14 :: b15 :: rest =>
    xxh32Stripes (xxh32Round v1 (le32 b0 b1 b2 b3)) (xxh32Round v2 (le32 b4 b5 b6 b7))
      (xxh32Round v3 (le32 b8 b9 b10 b11)) (xxh32Round v4 (le32 b12 b13 b14 b15)) rest
  | v1, v2, v3, v4, rest => (v1, v2, v3, v4, rest)

/-- Process remaining 4-byte words. -/
def xxh32Tail4 : Nat → List Nat → Nat × List Nat
  | h, b0 :: b1 :: b2 :: b3 :: rest =>
    xxh32Tail4 (mul32 (rotl32 (add32 h (mul32 (le32 b0 b1 b2 b3) xxPrime3)) 17) xxPrime4) rest
  | h, rest => (h, rest)

def xxh32Avalanche (h : Nat) : Nat :=
  let h := Nat.xor h (h >>> 15)
  let h := mul32 h xxPrime2
  let h := Nat.xor h (h >>> 13)
  let h := mul32 h xxPrime3
  Nat.xor h (h >>> 16)

/-- xxHash32 of a byte sequence with the given seed. -/
def xxh32 (data : List Nat) (seed : Nat) : Nat :=
  let n := data.length
  let (hBase, rest) :=
    if 16 ≤ n then
      let st := xxh32Stripes (add32 (add32 seed xxPrime1) xxPrime2) (add32 seed xxPrime2)
        (seed % m32) ((seed % m32 + (m32 - xxPrime1)) % m32) data
      (add32 (add32 (rotl32 st.1 1) (rotl32 st.2.1 7))
        (add32 (rotl32 st.2.2.1 12) (rotl32 st.2.2.2.1 18)), st.2.2.2.2)
    else (add32 seed xxPrime5, data)
  let h := add32 hBase n
  let (h, rest) := xxh32Tail4 h rest
  let h := rest.foldl (fun h b => mul32 (rotl32 (add32 h (mul32 b xxPrime5)) 11) xxPrime1) h
  xxh32Avalanche h

/-! ## Character and string helpers -/

/-- Unicode `White_Space` property, as used by Rust `char::is_whitespace`. -/
def isUWs (c : Char) : Bool :=
  let n := c.toNat
  (9 ≤ n && n ≤ 13) || n == 32 || n == 133 || n == 160 || n == 5760 ||
  (8192 ≤ n && n ≤ 8202) || n == 8232 || n == 8233 || n == 8239 || n == 8287 || n == 12288

def isDigitChar (c : Char) : Bool := 48 ≤ c.toNat && c.toNat ≤ 57

def isAsciiAlnumChar (c : Char) : Bool :=
  isDigitChar c || (65 ≤ c.toNat && c.toNat ≤ 90) || (97 ≤ c.toNat && c.toNat ≤ 122)

/-- UTF-8 encoding of one scalar value. -/
def utf8Encode (c : Char) : List Nat :=
  let n := c.toNat
  if n < 128 then [n]
  else if n < 2048 then [192 ||| (n >>> 6), 128 ||| (n &&& 63)]
  else if n < 65536 then [224 ||| (n >>> 12), 128 ||| ((n >>> 6) &&& 63), 128 ||| (n &&& 63)]
  else [240 ||| (n >>> 18), 128 ||| ((n >>> 12) &&& 63), 128 ||| ((n >>> 6) &&& 63),
        128 ||| (n &&& 63)]

def utf8Bytes (s : List Char) : List Nat := (s.map utf8Encode).foldr (· ++ ·) []

/-- UTF-8 byte length: the Rust `String::len`. -/
def utf8Len (s : List Char) : Nat := (utf8Bytes s).length

def digitChar (n : Nat) : Char :=
  match n with
  | 0 => '0' | 1 => '1' | 2 => '2' | 3 => '3' | 4 => '4'
  | 5 => '5' | 6 => '6' | 7 => '7' | 8 => '8' | 9 => '9'
  | _ => '*'

def hexDigitChar (n : Nat) : Char :=
  match n with
  | 0 => '0' | 1 => '1' | 2 => '2' | 3 => '3' | 4 => '4'
  | 5 => '5' | 6 => '6' | 7 => '7' | 8 => '8' | 9 => '9'
  | 10 => 'a' | 11 => 'b' | 12 => 'c' | 13 => 'd' | 14 => 'e' | 15 => 'f'
  | _ => '0'

/-- Rust `format!("{:02x}", h)` for `h < 256`. -/
def toHex2 (n : Nat) : List Char := [hexDigitChar (n / 16 % 16), hexDigitChar (n % 16)]

def isLowerHexDigit (c : Char) : Bool := isDigitChar c || (97 ≤ c.toNat && c.toNat ≤ 102)

/-- Decimal rendering of a `Nat` (fuel-based so it kernel-reduces). -/
def natToCharsAux : Nat → Nat → List Char → List Char
  | 0, _, acc => acc
  | fuel + 1, n, acc =>
    if n < 10 then digitChar n :: acc
    else natToCharsAux fuel (n / 10) (digitChar (n % 10) :: acc)

def natToChars (n : Nat) : List Char := natToCharsAux (n + 1) n []

def digitsToNat (s : List Char) : Nat := s.foldl (fun n c => n * 10 + (c.toNat - 48)) 0

/-- ASCII lowercasing of a hash string (anchor hashes are ASCII alphanumeric,
so Rust `str::to_lowercase` agrees with per-char ASCII lowercasing here). -/
def toLowerStr (s : List Char) : List Char := s.map Char.toLower

/-! ## src/hash.rs -/

/-- `compute_line_hash`: strip one trailing CR, drop all whitespace, xxHash32
seed 0 of the UTF-8 bytes, reduce mod 256, format as two lowercase hex digits.
The line-index parameter is accepted but unused, as in the source. -/
def computeLineHash (_idx : Nat) (line : List Char) : List Char :=
  let line := if line.getLast? = some '\r' then line.dropLast else line
  let normalized := line.filter (fun c => ! isUWs c)
  toHex2 (xxh32 (utf8Bytes normalized) 0 % 256)

/-- `strip_all_whitespace` from src/heuristics.rs. -/
def stripAllWhitespace (s : List Char) : List Char := s.filter (fun c => ! isUWs c)

/-! ## src/parse.rs — the anchor parser -/

structure LineRef where
  line : Nat
  hash : List Char
deriving DecidableEq

inductive ParseRefError
  | lineNumberZero
  | invalidFormat
deriving DecidableEq

/-- `ref_str.split('|').next()`. -/
def takeUntilChar (sep : Char) (s : List Char) : List Char := s.takeWhile (· != sep)

/-- Cut at the first occurrence of two consecutive spaces (legacy suffix). -/
def cutAtDoubleSpace : List Char → List Char
  | ' ' :: ' ' :: _ => []
  | c :: rest => c :: cutAtDoubleSpace rest
  | [] => []

/-- Rust `str::trim` (Unicode whitespace, both ends). -/
def trimChars (s : List Char) : List Char :=
  ((s.dropWhile isUWs).reverse.dropWhile isUWs).reverse

/-- Replace the first match of `\s*:\s*` by `":"`: remove the whitespace runs
immediately around the first colon. -/
def collapseFirstColonWs (s : List Char) : List Char :=
  match s.findIdx? (· == ':') with
  | none => s
  | some j =>
    ((s.take j).reverse.dropWhile isUWs).reverse ++ ':' :: (s.drop (j + 1)).dropWhile isUWs

/-- Match `^(\d+):([0-9a-zA-Z]{1,16})$`. -/
def strictAnchorMatch (s : List Char) : Option (List Char × List Char) :=
  let ds := s.takeWhile isDigitChar
  let rest := s.dropWhile isDigitChar
  if ds = [] then none
  else
    match rest with
    | ':' :: r2 =>
      if r2 ≠ [] ∧ r2.length ≤ 16 ∧ r2.all isAsciiAlnumChar then some (ds, r2) else none
    | _ => none

/-- Match `^(\d+):([0-9a-zA-Z]{2})`, tolerating trailing garbage. -/
def prefixAnchorMatch (s : List Char) : Option (List Char × List Char) :=
  let ds := s.takeWhile isDigitChar
  let rest := s.dropWhile isDigitChar
  if ds = [] then none
  else
    match rest with
    | ':' :: c1 :: c2 :: _ =>
      if isAsciiAlnumChar c1 ∧ isAsciiAlnumChar c2 then some (ds, [c1, c2]) else none
    | _ => none

/-- `parse_line_ref`: strip display/legacy suffixes and `>` markers, normalize
whitespace around the colon, then try the strict and the two-char matches.
(The Rust regex `\d` is the Unicode digit class; a non-ASCII digit would make
the subsequent `parse::<usize>().unwrap()` panic, so only ASCII digits are
modelled, and line numbers are `Nat`.) -/
def parseLineRef (refStr : List Char) : Except ParseRefError LineRef :=
  let cleaned := takeUntilChar '|' refStr
  let cleaned := cutAtDoubleSpace cleaned
  let cleaned := trimChars (cleaned.dropWhile (· == '>'))
  let normalized := collapseFirstColonWs cleaned
  match strictAnchorMatch normalized with
  | some (ds, h) =>
    let line := digitsToNat ds
    if line < 1 then .error .lineNumberZero else .ok ⟨line, h⟩
  | none =>
    match prefixAnchorMatch normalized with
    | some (ds, h) =>
      let line := digitsToNat ds
      if line < 1 then .error .lineNumberZero else .ok ⟨line, h⟩
    | none => .error .invalidFormat

/-! ## src/heuristics.rs -/

def hasDiffPlusMarker : List Char → Bool
  | '+' :: '+' :: _ => false
  | '+' :: _ => true
  | _ => false

def stripDiffPlus (s : List Char) : List Char :=
  if hasDiffPlusMarker s then s.drop 1 else s

/-- Match `\d+:[0-9a-zA-Z]{1,16}\|` after an optional leading `\s*`, returning
the remainder of the line after the matched region. -/
def hashlineAnchorRest (s : List Char) : Option (List Char) :=
  let s1 := s.dropWhile isUWs
  let ds := s1.takeWhile isDigitChar
  let r1 := s1.dropWhile isDigitChar
  if ds = [] then none
  else
    match r1 with
    | ':' :: r2 =>
      let t := r2.takeWhile isAsciiAlnumChar
      let r3 := r2.dropWhile isAsciiAlnumChar
      if 1 ≤ t.length ∧ t.length ≤ 16 then
        match r3 with
        | '|' :: r4 => some r4
        | _ => none
      else none
    | _ => none

/-- Leftmost-first match of `^\s*(?:>>>|>>)?\s*\d+:[0-9a-zA-Z]{1,16}\|`
(the `HASHLINE_PREFIX_RE`); returns the rest of the line after the match. -/
def hashlineMatchRest (s : List Char) : Option (List Char) :=
  let s0 := s.dropWhile isUWs
  (if s0.take 3 = ['>', '>', '>'] then hashlineAnchorRest (s0.drop 3) else none)
  <|> (if s0.take 2 = ['>', '>'] then hashlineAnchorRest (s0.drop 2) else none)
  <|> hashlineAnchorRest s0

/-- `strip_new_line_prefixes`. -/
def stripNewLinePrefixes (lines : List (List Char)) : List (List Char) :=
  let nonEmpty := (lines.filter (fun l => ! l.isEmpty)).length
  let hashCount := (lines.filter (fun l => ! l.isEmpty && (hashlineMatchRest l).isSome)).length
  let plusCount := (lines.filter (fun l => ! l.isEmpty && hasDiffPlusMarker l)).length
  if nonEmpty = 0 then lines
  else
    let stripHash : Bool := decide (0 < hashCount ∧ nonEmpty ≤ hashCount * 2)
    let stripPlus : Bool := ! stripHash && decide (0 < plusCount ∧ nonEmpty ≤ plusCount * 2)
    if ! stripHash && ! stripPlus then lines
    else
      lines.map (fun l => if stripHash then (hashlineMatchRest l).getD l else stripDiffPlus l)

def leadingWhitespace (s : List Char) : List Char := s.takeWhile isUWs

def restoreLeadingIndent (templateLine line : List Char) : List Char :=
  if line = [] then line
  else
    let templateIndent := leadingWhitespace templateLine
    if templateIndent = [] then line
    else
      let indent := leadingWhitespace line
      if indent ≠ [] then line else templateIndent ++ line

def equalsIgnoringWhitespace (a b : List Char) : Bool :=
  a == b || stripAllWhitespace a == stripAllWhitespace b

/-- `restore_indent_for_paired_replacement`. -/
def restoreIndentForPairedReplacement (oldLines newLines : List (List Char)) :
    List (List Char) :=
  if oldLines.length ≠ newLines.length then newLines
  else
    let out := List.zipWith restoreLeadingIndent oldLines newLines
    if out ≠ newLines then out else newLines

def concatAll {α : Type} (l : List (List α)) : List α := l.foldr (· ++ ·) []

def assocFind {β : Type} (k : List Char) : List (List Char × β) → Option β
  | [] => none
  | e :: rest => if e.1 = k then some e.2 else assocFind k rest

def assocUpdate {β : Type} (k : List Char) (v : β) : List (List Char × β) →
    List (List Char × β)
  | [] => []
  | e :: rest => if e.1 = k then (k, v) :: rest else e :: assocUpdate k v rest

/-- The `canon_to_old` map: canonical text of an original line to the first
such line together with its multiplicity. -/
def buildCanonMap (oldLines : List (List Char)) :
    List (List Char × (List Char × Nat)) :=
  oldLines.foldl (fun acc line =>
    let canon := stripAllWhitespace line
    match assocFind canon acc with
    | some (first, cnt) => assocUpdate canon (first, cnt + 1) acc
    | none => acc ++ [(canon, (line, 1))]) []

structure WrapCandidate where
  start : Nat
  len : Nat
  replacement : List Char
  canon : List Char

def wrapCandidates (canonMap : List (List Char × (List Char × Nat)))
    (newLines : List (List Char)) : List WrapCandidate :=
  concatAll ((List.range newLines.length).map (fun start =>
    (List.range' 2 (min 10 (newLines.length - start) - 1)).filterMap (fun len =>
      let joined := concatAll ((newLines.drop start).take len)
      let canonSpan := stripAllWhitespace joined
      match assocFind canonSpan canonMap with
      | some (oldLine, cnt) =>
        if cnt = 1 ∧ 6 ≤ utf8Len canonSpan then
          some ⟨start, len, oldLine, canonSpan⟩
        else none
      | none => none)))

def wrapUnique (cands : List WrapCandidate) : List WrapCandidate :=
  cands.filter (fun c => (cands.filter (fun d => d.canon == c.canon)).length == 1)

def insertSorted {α : Type} (le : α → α → Bool) (x : α) : List α → List α
  | [] => [x]
  | y :: ys => if le x y then x :: y :: ys else y :: insertSorted le x ys

/-- Stable sort (insertion sort) with respect to a boolean `le`. -/
def sortByLE {α : Type} (le : α → α → Bool) (l : List α) : List α :=
  l.foldr (insertSorted le) []

/-- Rust `Vec::splice` over `start..stop`; `none` models the out-of-bounds
panic (start greater than stop, or stop greater than the length). -/
def listSplice {α : Type} (l : List α) (start stop : Nat) (repl : List α) :
    Option (List α) :=
  if start ≤ stop ∧ stop ≤ l.length then some (l.take start ++ repl ++ l.drop stop) else none

/-- `restore_old_wrapped_lines`. -/
def restoreOldWrappedLines (oldLines newLines : List (List Char)) :
    Option (List (List Char)) :=
  if oldLines.isEmpty || newLines.length < 2 then some newLines
  else
    let canonMap := buildCanonMap oldLines
    let candidates := wrapCandidates canonMap newLines
    if candidates.isEmpty then some newLines
    else
      let uniqueCands := wrapUnique candidates
      if uniqueCands.isEmpty then some newLines
      else
        let sorted := sortByLE (fun a b => Nat.ble b.start a.start) uniqueCands
        sorted.foldlM (fun out c => listSplice out c.start (c.start + c.len) [c.replacement])
          newLines

/-- `strip_insert_anchor_echo_after`. -/
def stripInsertAnchorEchoAfter (anchorLine : List Char) (dstLines : List (List Char)) :
    List (List Char) :=
  if dstLines.length ≤ 1 then dstLines
  else if equalsIgnoringWhitespace (dstLines.headD []) anchorLine then dstLines.drop 1
  else dstLines

/-- `strip_range_boundary_echo`; `none` models the `file_lines[before_idx]`
index panic. -/
def stripRangeBoundaryEcho (fileLines : List (List Char)) (startLine endLine : Nat)
    (dstLines : List (List Char)) : Option (List (List Char)) :=
  let count := endLine - startLine + 1
  if dstLines.length ≤ 1 ∨ dstLines.length ≤ count then some dstLines
  else do
    let out ←
      (if 2 ≤ startLine then
        match fileLines[startLine - 2]? with
        | none => none
        | some prevLine =>
          some (if equalsIgnoringWhitespace (dstLines.headD []) prevLine then dstLines.drop 1
            else dstLines)
      else some dstLines)
    let afterIdx := endLine
    if afterIdx < fileLines.length ∧ ¬ out.isEmpty ∧
        equalsIgnoringWhitespace (out.getLast?.getD []) (fileLines.getD afterIdx []) then
      some out.dropLast
    else some out

def contTokens : List (List Char) :=
  [['&', '&'], ['|', '|'], ['?', '?'], ['?'], [':'], ['='], [','], ['+'], ['-'], ['*'],
   ['/'], ['.'], ['(']]

def contMatchHere (s : List Char) : Bool :=
  contTokens.any (fun t => s.take t.length == t && (s.drop t.length).all isUWs)

def stcFind : List Char → Option (List Char)
  | [] => none
  | c :: rest => if contMatchHere (c :: rest) then some [] else (stcFind rest).map (c :: ·)

/-- `strip_trailing_continuation_tokens`: replace the leftmost match of
`(?:&&|\|\||\?\?|\?|:|=|,|\+|-|\*|/|\.|\()\s*$` by the empty string. -/
def stripTrailingContinuationTokens (s : List Char) : List Char := (stcFind s).getD s

def stripMergeOperatorChars (s : List Char) : List Char :=
  s.filter (fun c => ! (c == '|' || c == '&' || c == '?'))

def hasPrefixL : List Char → List Char → Bool
  | [], _ => true
  | _ :: _, [] => false
  | p :: ps, c :: cs => p == c && hasPrefixL ps cs

/-- Rust `str::find` (leftmost occurrence); the source uses byte offsets, we
use char indices — only presence and relative order are ever consumed. -/
def findSubstring (hay pat : List Char) : Option Nat :=
  match hay with
  | [] => if pat.isEmpty then some 0 else none
  | c :: rest =>
    if hasPrefixL pat (c :: rest) then some 0 else (findSubstring rest pat).map (· + 1)

def isConfusableHyphen (c : Char) : Bool :=
  let n := c.toNat
  n == 8208 || n == 8209 || n == 8210 || n == 8211 || n == 8212 || n == 8722 ||
  n == 65123 || n == 65293

def hasConfusableHyphens (s : List Char) : Bool := s.any isConfusableHyphen

def normalizeConfusableHyphens (s : List Char) : List Char :=
  s.map (fun c => if isConfusableHyphen c then '-' else c)

def normalizeConfusableHyphensInLines (lines : List (List Char)) : List (List Char) :=
  lines.map normalizeConfusableHyphens

/-- `maybe_expand_single_line_merge`. -/
def maybeExpandSingleLineMerge (line : Nat) (dst : List (List Char))
    (fileLines : List (List Char)) (touched : List Nat) :
    Option (Nat × Nat × List (List Char)) :=
  if dst.length ≠ 1 then none
  else if line < 1 ∨ fileLines.length < line then none
  else
    let newLine := dst.headD []
    let newCanon := stripAllWhitespace newLine
    let newCanonForMergeOps := stripMergeOperatorChars newCanon
    if newCanon = [] then none
    else
      let orig := fileLines.getD (line - 1) []
      let origCanon := stripAllWhitespace orig
      let origCanonForMatch := stripTrailingContinuationTokens origCanon
      let origCanonForMergeOps := stripMergeOperatorChars origCanon
      let origLooksLikeContinuation := utf8Len origCanonForMatch < utf8Len origCanon
      if origCanon = [] then none
      else
        let caseA :=
          if origLooksLikeContinuation ∧ line < fileLines.length ∧ (line + 1) ∉ touched then
            let next := fileLines.getD line []
            let nextCanon := stripAllWhitespace next
            match findSubstring newCanon origCanonForMatch, findSubstring newCanon nextCanon with
            | some a, some b =>
              if a < b ∧ utf8Len newCanon ≤ utf8Len origCanon + utf8Len nextCanon + 32 then
                some (line, 2, [newLine])
              else none
            | _, _ => none
          else none
        match caseA with
        | some r => some r
        | none =>
          if 2 ≤ line then
            if (line - 1) ∈ touched then none
            else
              let prev := fileLines.getD (line - 2) []
              let prevCanon := stripAllWhitespace prev
              let prevCanonForMatch := stripTrailingContinuationTokens prevCanon
              if ¬ (utf8Len prevCanonForMatch < utf8Len prevCanon) then none
              else
                match findSubstring newCanonForMergeOps
                        (stripMergeOperatorChars prevCanonForMatch),
                      findSubstring newCanonForMergeOps origCanonForMergeOps with
                | some a, some b =>
                  if a < b ∧ utf8Len newCanon ≤ utf8Len prevCanon + utf8Len origCanon + 32 then
                    some (line - 1, 2, [newLine])
                  else none
                | _, _ => none
          else none

/-! ## src/edit.rs — data model and the text edit engine -/

inductive HashlineEdit
  | setLine (anchor newText : List Char)
  | replaceLines (startAnchor : List Char) (endAnchor : Option (List Char))
      (newText : Option (List Char))
  | insertAfter (anchor : List Char) (text : Option (List Char)) (content : Option (List Char))
  | replace (oldText newText : List Char)
deriving DecidableEq

inductive ParsedRefs
  | single (line : Nat) (hash : List Char)
  | range (startLine : Nat) (startHash : List Char) (endLine : Nat) (endHash : List Char)
  | insertAfter (line : Nat) (hash : List Char)
deriving DecidableEq

structure ParsedEdit where
  spec : ParsedRefs
  dstLines : List (List Char)
deriving DecidableEq

structure HashMismatch where
  line : Nat
  expected : List Char
  actual : List Char
deriving DecidableEq

structure NoopEdit where
  editIndex : Nat
  loc : List Char
  currentContent : List Char
deriving DecidableEq

/-- The "Edit changed N lines across K operations" warning, carried
structurally. -/
structure Warning where
  diffLineCount : Nat
  opsCount : Nat
deriving DecidableEq

structure ApplyResult where
  content : List Char
  firstChangedLine : Option Nat
  warnings : List Warning
  noopEdits : List NoopEdit
deriving DecidableEq

/-- Errors of `apply_hashline_edits`; `format!` messages are carried as
structured payloads. -/
inductive ApplyError
  | refError (e : ParseRefError)
  | replaceSeparately
  | lineDoesNotExist (line fileLen : Nat)
  | rangeStartAfterEnd (startLine endLine : Nat)
  | mismatchError (ms : List HashMismatch) (fileLines : List (List Char))
deriving DecidableEq

/-- `parse_hashline_edit`. -/
def parseHashlineEdit (edit : HashlineEdit) : Except ApplyError (ParsedRefs × List Char) :=
  match edit with
  | .setLine anchor newText =>
    match parseLineRef anchor with
    | .error e => .error (.refError e)
    | .ok r => .ok (.single r.line r.hash, newText)
  | .replaceLines startAnchor endAnchor newText =>
    match parseLineRef startAnchor with
    | .error e => .error (.refError e)
    | .ok start =>
      let nt := newText.getD []
      match endAnchor with
      | none => .ok (.single start.line start.hash, nt)
      | some endStr =>
        match parseLineRef endStr with
        | .error e => .error (.refError e)
        | .ok en =>
          if start.line = en.line then .ok (.single start.line start.hash, nt)
          else .ok (.range start.line start.hash en.line en.hash, nt)
  | .insertAfter anchor text content =>
    match parseLineRef anchor with
    | .error e => .error (.refError e)
    | .ok r => .ok (.insertAfter r.line r.hash, (text <|> content).getD [])
  | .replace _ _ => .error .replaceSeparately

/-- Rust `str::split(sep)`: always at least one piece. -/
def splitChar (sep : Char) : List Char → List (List Char)
  | [] => [[]]
  | c :: rest =>
    match splitChar sep rest with
    | [] => [[c]]
    | h :: t => if c = sep then [] :: h :: t else (c :: h) :: t

/-- `split_dst_lines`. -/
def splitDstLines (dst : List Char) : List (List Char) :=
  if dst.isEmpty then [] else splitChar '\n' dst

/-- `lines.join("\n")`. -/
def joinLines : List (List Char) → List Char
  | [] => []
  | [x] => x
  | x :: y :: rest => x ++ '\n' :: joinLines (y :: rest)

/-- Parse phase: parse every edit and apply heuristic (1) to its replacement. -/
def parseAllEdits : Nat → List HashlineEdit → Except ApplyError (List (Nat × ParsedEdit))
  | _, [] => .ok []
  | i, e :: rest =>
    match parseHashlineEdit e with
    | .error err => .error err
    | .ok (spec, dst) =>
      match parseAllEdits (i + 1) rest with
      | .error err => .error err
      | .ok tail => .ok ((i, ⟨spec, stripNewLinePrefixes (splitDstLines dst)⟩) :: tail)

def touchedOf (spec : ParsedRefs) : List Nat :=
  match spec with
  | .single line _ => [line]
  | .range s _ e _ => List.range' s (e + 1 - s)
  | .insertAfter line _ => [line]

def collectTouched (parsed : List (Nat × ParsedEdit)) : List Nat :=
  concatAll (parsed.map (fun p => touchedOf p.2.spec))

/-- Remove the (single) entry with the given key: `HashMap::remove`. -/
def assocRemove {β : Type} (k : List Char) : List (List Char × β) → List (List Char × β)
  | [] => []
  | e :: rest => if e.1 = k then rest else e :: assocRemove k rest

/-- One iteration of the `unique_line_by_hash` construction loop; the first
state component is the map, the second the `seen_duplicate_hashes` set. -/
def uniqueIndexStep (st : List (List Char × Nat) × List (List Char)) (p : Nat × List Char) :
    List (List Char × Nat) × List (List Char) :=
  let lineNo := p.1 + 1
  let h := computeLineHash lineNo p.2
  if h ∈ st.2 then st
  else if (assocFind h st.1).isSome then (assocRemove h st.1, h :: st.2)
  else ((h, lineNo) :: st.1, st.2)

/-- The `unique_line_by_hash` map: hash of a line to its 1-based line number,
keeping only hashes occurring exactly once in the file. -/
def buildUniqueIndex (fileLines : List (List Char)) : List (List Char × Nat) :=
  (fileLines.enum.foldl uniqueIndexStep ([], [])).1

/-- The 1-based line numbers of enumerated lines whose hash is `h`. -/
def pairOccs (l : List (Nat × List Char)) (h : List Char) : List Nat :=
  (l.filter (fun p => decide (computeLineHash (p.1 + 1) p.2 = h))).map (fun p => p.1 + 1)

/-- The 1-based line numbers of the file lines whose hash is `h`. -/
def linesWithHash (fileLines : List (List Char)) (h : List Char) : List Nat :=
  pairOccs fileLines.enum h

/-- `validate_or_relocate`: returns the (possibly relocated) line, the newly
recorded mismatch if any, and the success flag. -/
def validateOrRelocate (line : Nat) (hash : List Char) (fileLines : List (List Char))
    (uniq : List (List Char × Nat)) : Nat × Option HashMismatch × Bool :=
  if line < 1 ∨ fileLines.length < line then (line, none, false)
  else
    let expected := toLowerStr hash
    let actual := computeLineHash line (fileLines.getD (line - 1) [])
    if actual = expected then (line, none, true)
    else
      match assocFind expected uniq with
      | some relocated => (relocated, none, true)
      | none => (line, some ⟨line, hash, actual⟩, false)

/-- The (line, hash) reference pairs of a parsed edit. -/
def refPairs : ParsedRefs → List (Nat × List Char)
  | .single l h => [(l, h)]
  | .range sl sh el eh => [(sl, sh), (el, eh)]
  | .insertAfter l h => [(l, h)]

/-- The stale-anchor condition of the claims: the referenced line is in
bounds, its hash does not match (case-insensitively), and the expected hash
is absent from the unique-hash index. -/
def failsAt (fl : List (List Char)) (uniq : List (List Char × Nat))
    (line : Nat) (hash : List Char) : Prop :=
  ¬ (line < 1 ∨ fl.length < line) ∧
  computeLineHash line (fl.getD (line - 1) []) ≠ toLowerStr hash ∧
  assocFind (toLowerStr hash) uniq = none

/-- Validation of one parsed edit: bounds checks, relocation, the empty
insert-after promotion, and the range scope guard.  (In the source,
`relocated_count = end - start + 1` underflows `usize` when relocation made
`start > end`; in that case `invalid_range` is true so the observable outcome
is the same — we use truncating `Nat` subtraction.) -/
def validateOneEdit (fileLines : List (List Char)) (uniq : List (List Char × Nat))
    (p : ParsedEdit) : Except ApplyError (ParsedEdit × List HashMismatch) :=
  match p.spec with
  | .single line hash =>
    if line < 1 ∨ fileLines.length < line then
      .error (.lineDoesNotExist line fileLines.length)
    else
      let r := validateOrRelocate line hash fileLines uniq
      .ok (⟨.single r.1 hash, p.dstLines⟩, r.2.1.toList)
  | .insertAfter line hash =>
    if line < 1 ∨ fileLines.length < line then
      .error (.lineDoesNotExist line fileLines.length)
    else
      let dst := if p.dstLines.isEmpty then [[]] else p.dstLines
      let r := validateOrRelocate line hash fileLines uniq
      .ok (⟨.insertAfter r.1 hash, dst⟩, r.2.1.toList)
  | .range startLine startHash endLine endHash =>
    if startLine < 1 ∨ fileLines.length < startLine then
      .error (.lineDoesNotExist startLine fileLines.length)
    else if endLine < 1 ∨ fileLines.length < endLine then
      .error (.lineDoesNotExist endLine fileLines.length)
    else if endLine < startLine then .error (.rangeStartAfterEnd startLine endLine)
    else
      let originalCount := endLine - startLine + 1
      let rs := validateOrRelocate startLine startHash fileLines uniq
      let re := validateOrRelocate endLine endHash fileLines uniq
      let sl := rs.1
      let el := re.1
      if rs.2.2 && re.2.2 then
        let relocatedCount := el - sl + 1
        if (sl ≠ startLine ∨ el ≠ endLine) ∧ (el < sl ∨ relocatedCount ≠ originalCount) then
          .ok (⟨.range startLine startHash endLine endHash, p.dstLines⟩,
            rs.2.1.toList ++ re.2.1.toList ++
            [⟨startLine, startHash,
              computeLineHash startLine (fileLines.getD (startLine - 1) [])⟩,
             ⟨endLine, endHash, computeLineHash endLine (fileLines.getD (endLine - 1) [])⟩])
        else .ok (⟨.range sl startHash el endHash, p.dstLines⟩, rs.2.1.toList ++ re.2.1.toList)
      else .ok (⟨.range sl startHash el endHash, p.dstLines⟩, rs.2.1.toList ++ re.2.1.toList)

/-- Phase C: validate all parsed edits in order, accumulating recorded
mismatches; the first out-of-range reference aborts with its error. -/
def validateEdits (fileLines : List (List Char)) (uniq : List (List Char × Nat)) :
    List (Nat × ParsedEdit) → Except ApplyError (List (Nat × ParsedEdit) × List HashMismatch)
  | [] => .ok ([], [])
  | (i, p) :: rest =>
    match validateOneEdit fileLines uniq p with
    | .error e => .error e
    | .ok (p', ms) =>
      match validateEdits fileLines uniq rest with
      | .error e => .error e
      | .ok (rest', msRest) => .ok ((i, p') :: rest', ms ++ msRest)

def locStr (line : Nat) (hash : List Char) : List Char := natToChars line ++ ':' :: hash

/-- The dedup key `"{kind}:{line_or_range}|{dst joined}"`. -/
def editKey (p : ParsedEdit) : List Char :=
  let lineKey :=
    match p.spec with
    | .single l _ => 's' :: ':' :: natToChars l
    | .range s _ e _ => 'r' :: ':' :: (natToChars s ++ ':' :: natToChars e)
    | .insertAfter l _ => 'i' :: ':' :: natToChars l
  lineKey ++ '|' :: joinLines p.dstLines

/-- Phase D: drop edits whose key was already seen (first occurrence wins). -/
def dedupEdits : List (List Char) → List (Nat × ParsedEdit) → List (Nat × ParsedEdit)
  | _, [] => []
  | seen, (i, p) :: rest =>
    let k := editKey p
    if k ∈ seen then dedupEdits seen rest
    else (i, p) :: dedupEdits (k :: seen) rest

def sortLineOf (p : ParsedEdit) : Nat :=
  match p.spec with
  | .single l _ => l
  | .range _ _ e _ => e
  | .insertAfter l _ => l

def precOf (p : ParsedEdit) : Nat :=
  match p.spec with
  | .insertAfter _ _ => 1
  | _ => 0

/-- Phase E order: descending line, then `InsertAfter` after the others, then
original index. -/
def editLE (a b : Nat × ParsedEdit) : Bool :=
  if sortLineOf a.2 ≠ sortLineOf b.2 then decide (sortLineOf b.2 < sortLineOf a.2)
  else if precOf a.2 ≠ precOf b.2 then decide (precOf a.2 < precOf b.2)
  else decide (a.1 ≤ b.1)

def trackFirstChanged (first : Option Nat) (line : Nat) : Option Nat :=
  match first with
  | none => some line
  | some f => if line < f then some line else some f

/-- Rust slice `&l[start..stop]`; `none` models the out-of-bounds panic. -/
def sliceRange {α : Type} (l : List α) (start stop : Nat) : Option (List α) :=
  if start ≤ stop ∧ stop ≤ l.length then some ((l.drop start).take (stop - start)) else none

abbrev SpliceState := List (List Char) × Option Nat × List NoopEdit

/-- Phase F, one edit: the bottom-up splice step of `apply_hashline_edits`. -/
def applySpliceOne (originalFileLines : List (List Char)) (touched : List Nat)
    (st : SpliceState) (ie : Nat × ParsedEdit) : Option SpliceState :=
  let fileLines := st.1
  let first := st.2.1
  let noops := st.2.2
  let idx := ie.1
  let edit := ie.2
  match edit.spec with
  | .single line hash =>
    match maybeExpandSingleLineMerge line edit.dstLines fileLines touched with
    | some (start, deleteCount, newLines) => do
      let origLines ← sliceRange originalFileLines (start - 1) (start - 1 + deleteCount)
      let next1 := restoreIndentForPairedReplacement [origLines.headD []] newLines
      let next2 :=
        if joinLines origLines = joinLines next1 ∧ origLines.any hasConfusableHyphens then
          normalizeConfusableHyphensInLines next1
        else next1
      if joinLines origLines = joinLines next2 then
        some (fileLines, first, noops ++ [⟨idx, locStr line hash, joinLines origLines⟩])
      else do
        let fl ← listSplice fileLines (start - 1) (start - 1 + deleteCount) next2
        some (fl, trackFirstChanged first start, noops)
    | none => do
      let origLines ← sliceRange originalFileLines (line - 1) line
      let stripped ← stripRangeBoundaryEcho originalFileLines line line edit.dstLines
      let stripped2 ← restoreOldWrappedLines origLines stripped
      let newLines1 := restoreIndentForPairedReplacement origLines stripped2
      let newLines2 :=
        if joinLines origLines = joinLines newLines1 ∧ origLines.any hasConfusableHyphens then
          normalizeConfusableHyphensInLines newLines1
        else newLines1
      if joinLines origLines = joinLines newLines2 then
        some (fileLines, first, noops ++ [⟨idx, locStr line hash, joinLines origLines⟩])
      else do
        let fl ← listSplice fileLines (line - 1) line newLines2
        some (fl, trackFirstChanged first line, noops)
  | .range startLine startHash endLine _ => do
    let count := endLine - startLine + 1
    let origLines ← sliceRange originalFileLines (startLine - 1) (startLine - 1 + count)
    let stripped ← stripRangeBoundaryEcho originalFileLines startLine endLine edit.dstLines
    let stripped2 ← restoreOldWrappedLines origLines stripped
    let newLines1 := restoreIndentForPairedReplacement origLines stripped2
    let newLines2 :=
      if joinLines origLines = joinLines newLines1 ∧ origLines.any hasConfusableHyphens then
        normalizeConfusableHyphensInLines newLines1
      else newLines1
    if joinLines origLines = joinLines newLines2 then
      some (fileLines, first, noops ++ [⟨idx, locStr startLine startHash, joinLines origLines⟩])
    else do
      let fl ← listSplice fileLines (startLine - 1) (startLine - 1 + count) newLines2
      some (fl, trackFirstChanged first startLine, noops)
  | .insertAfter line hash => do
    let anchorLine ← originalFileLines[line - 1]?
    let inserted := stripInsertAnchorEchoAfter anchorLine edit.dstLines
    if inserted.isEmpty then
      some (fileLines, first, noops ++ [⟨idx, locStr line hash, anchorLine⟩])
    else do
      let fl ← listSplice fileLines line line inserted
      some (fl, trackFirstChanged first (line + 1), noops)

/-- Phase G: the excessive-diff warning. -/
def computeWarnings (originalFileLines fileLines : List (List Char)) (editsCount : Nat) :
    List Warning :=
  let lengthDelta := (fileLines.length - originalFileLines.length) +
    (originalFileLines.length - fileLines.length)
  let pairDiff := ((fileLines.zip originalFileLines).filter (fun p => decide (p.1 ≠ p.2))).length
  let diffLineCount := lengthDelta + pairDiff
  if editsCount * 4 < diffLineCount then [⟨diffLineCount, editsCount⟩] else []

/-- `apply_hashline_edits`.  The outer `Option` models reachable Rust panics
in the splice phase (`none` = panic); `Except` is the source's `Result`. -/
def applyHashlineEdits (content : List Char) (edits : List HashlineEdit) :
    Option (Except ApplyError ApplyResult) :=
  if edits.isEmpty then some (.ok ⟨content, none, [], []⟩)
  else
    let fileLines := splitChar '\n' content
    match parseAllEdits 0 edits with
    | .error e => some (.error e)
    | .ok parsed =>
      let uniq := buildUniqueIndex fileLines
      match validateEdits fileLines uniq parsed with
      | .error e => some (.error e)
      | .ok (parsed', mismatches) =>
        if mismatches ≠ [] then some (.error (.mismatchError mismatches fileLines))
        else
          let touched := collectTouched parsed'
          let deduped := dedupEdits [] parsed'
          let sorted := sortByLE editLE deduped
          match sorted.foldlM (applySpliceOne fileLines touched)
              ((fileLines, none, []) : SpliceState) with
          | none => none
          | some st =>
            some (.ok ⟨joinLines st.1, st.2.1, computeWarnings fileLines st.1 edits.length,
              st.2.2⟩)

/-! ## src/edit.rs — the substring-replace engine -/

inductive ReplaceError
  | emptyOldText
  | notFound (oldText : List Char)
  | ambiguous (total : Nat) (oldText : List Char)
deriving DecidableEq

structure ReplaceResult where
  content : List Char
  replacements : Nat
  firstChangedLine : Option Nat
deriving DecidableEq

def countChar (c : Char) (s : List Char) : Nat := (s.filter (· == c)).length

def countMatchesAux : Nat → List Char → List Char → Nat
  | 0, _, _ => 0
  | fuel + 1, hay, pat =>
    match findSubstring hay pat with
    | none => 0
    | some i => 1 + countMatchesAux fuel (hay.drop (i + pat.length)) pat

/-- Number of non-overlapping occurrences (the Rust `match_indices` count);
fuel `hay.length + 1` suffices for a non-empty pattern. -/
def countMatches (hay pat : List Char) : Nat := countMatchesAux (hay.length + 1) hay pat

/-- One iteration of the `apply_replace_edits` loop; non-`Replace` edits are
skipped.  State: (current content, total replacements, first changed line). -/
def applyReplaceStep (st : List Char × Nat × Option Nat) (edit : HashlineEdit) :
    Except ReplaceError (List Char × Nat × Option Nat) :=
  match edit with
  | .replace oldText newText =>
    if oldText.isEmpty then .error .emptyOldText
    else
      match findSubstring st.1 oldText with
      | none => .error (.notFound oldText)
      | some pos =>
        let duplicateCount := countMatches (st.1.drop (pos + oldText.length)) oldText
        if 0 < duplicateCount then .error (.ambiguous (duplicateCount + 1) oldText)
        else
          let line := countChar '\n' (st.1.take pos) + 1
          let first :=
            match st.2.2 with
            | none => some line
            | some f => if line < f then some line else some f
          .ok (st.1.take pos ++ newText ++ st.1.drop (pos + oldText.length), st.2.1 + 1, first)
  | _ => .ok st

/-- `apply_replace_edits`. -/
def applyReplaceEdits (content : List Char) (edits : List HashlineEdit) :
    Except ReplaceError ReplaceResult :=
  match edits.foldlM applyReplaceStep (content, 0, none) with
  | .error e => .error e
  | .ok st => .ok ⟨st.1, st.2.1, st.2.2⟩

/-! ## src/main.rs — the `hash` command output

The `Commands::Hash` arm of `main` (src/main.rs lines 252–270) contains the
line-printing loop twice, verbatim; the output below reproduces that. -/

def hashCommandOutput (content : List Char) : List (List Char) :=
  let lines := splitChar '\n' content
  lines.enum.map (fun p => natToChars (p.1 + 1) ++ ':' :: computeLineHash (p.1 + 1) p.2) ++
  lines.enum.map (fun p => natToChars (p.1 + 1) ++ ':' :: computeLineHash (p.1 + 1) p.2)

/-! ## src/json.rs — the JSON path+hash engine

The JSON value model: integer numbers only (floating-point `serde_json`
numbers are out of scope of the claims); objects are insertion-ordered
key/value lists, as the spec's presentation model requires. -/

inductive JValue
  | null
  | bool (b : Bool)
  | num (n : Int)
  | str (s : List Char)
  | arr (items : List JValue)
  | obj (entries : List (List Char × JValue))

def intToChars (i : Int) : List Char :=
  if i < 0 then '-' :: natToChars i.natAbs else natToChars i.toNat

/-- The canonical JSON string escaping of `hash_canonical`, applied bytewise. -/
def escapeJsonStringBytes (bs : List Nat) : List Nat :=
  concatAll (bs.map (fun b =>
    if b = 34 then [92, 34]
    else if b = 92 then [92, 92]
    else if b = 10 then [92, 110]
    else if b = 13 then [92, 114]
    else if b = 9 then [92, 116]
    else if b = 8 then [92, 98]
    else if b = 12 then [92, 102]
    else if b < 32 then [92, 117, 48, 48, (hexDigitChar (b / 16)).toNat, (hexDigitChar (b % 16)).toNat]
    else [b]))

/-- Byte-lexicographic order on UTF-8 byte lists (Rust `String` ordering,
used by `keys.sort_unstable()`). -/
def bytesLt : List Nat → List Nat → Bool
  | [], [] => false
  | [], _ :: _ => true
  | _ :: _, [] => false
  | a :: r1, b :: r2 => if a < b then true else if b < a then false else bytesLt r1 r2

def joinBytesComma : List (List Nat) → List Nat
  | [] => []
  | [x] => x
  | x :: y :: rest => x ++ 44 :: joinBytesComma (y :: rest)

mutual

/-- `hash_canonical` serialization.  The source sorts the object keys and then
serializes each value in sorted order; here each entry's value is serialized
first and the (key bytes, value bytes) pairs are then sorted by key — the
output bytes are identical because serialization is position-independent. -/
def canonBytes : JValue → List Nat
  | .null => [110, 117, 108, 108]
  | .bool true => [116, 114, 117, 101]
  | .bool false => [102, 97, 108, 115, 101]
  | .num n => utf8Bytes (intToChars n)
  | .str s => 34 :: (escapeJsonStringBytes (utf8Bytes s) ++ [34])
  | .arr items => 91 :: (canonArrBytes items ++ [93])
  | .obj entries =>
    let sorted := sortByLE (fun e1 e2 => ! bytesLt e2.1 e1.1) (canonObjPieces entries)
    123 :: (joinBytesComma (sorted.map (fun e =>
      (34 :: (escapeJsonStringBytes e.1 ++ [34, 58])) ++ e.2)) ++ [125])

def canonArrBytes : List JValue → List Nat
  | [] => []
  | [v] => canonBytes v
  | v :: w :: rest => canonBytes v ++ 44 :: canonArrBytes (w :: rest)

def canonObjPieces : List (List Char × JValue) → List (List Nat × List Nat)
  | [] => []
  | e :: rest => (utf8Bytes e.1, canonBytes e.2) :: canonObjPieces rest

end

/-- `compute_canonical_hash`: xxHash32 of the canonical bytes, mod 256, as
two lowercase hex digits. -/
def computeCanonicalHash (v : JValue) : List Char := toHex2 (xxh32 (canonBytes v) 0 % 256)

/-- `compute_json_anchor`. -/
def computeJsonAnchor (path : List Char) (v : JValue) : List Char :=
  path ++ ':' :: computeCanonicalHash v

inductive JsonError
  | hashMismatch (path expected actual : List Char)
  | other (msg : List Char)
deriving DecidableEq

/-- `anchor.rfind(':')`. -/
def lastIndexOfColon (s : List Char) : Option Nat :=
  match s.reverse.findIdx? (· == ':') with
  | none => none
  | some jr => some (s.length - 1 - jr)

/-- `parse_anchor`: split at the last colon; the hash part must be 1–16
ASCII alphanumeric characters. -/
def parseAnchor (anchor : List Char) : Except JsonError (List Char × List Char) :=
  match lastIndexOfColon anchor with
  | none => .error (.other ("Invalid anchor format, missing colon: ".data ++ anchor))
  | some j =>
    let path := anchor.take j
    let hash := anchor.drop (j + 1)
    if 1 ≤ hash.length ∧ hash.length ≤ 16 ∧ hash.all isAsciiAlnumChar then .ok (path, hash)
    else .error (.other ("Invalid hash format in anchor: ".data ++ anchor))

inductive PathSegment
  | key (k : List Char)
  | index (i : Nat)
deriving DecidableEq

/-- `idx_str.parse::<usize>()`, restricted to plain ASCII digit strings (the
Rust parser would also accept a leading plus sign and can overflow). -/
def parseNatStrict (s : List Char) : Option Nat :=
  if s ≠ [] ∧ s.all isDigitChar then some (digitsToNat s) else none

/-- The segment loop of `parse_path_segments`; each step consumes at least one
character, so fuel `input.length + 1` always suffices. -/
def parseSegsLoopF : Nat → List Char → Except JsonError (List PathSegment)
  | 0, _ => .error (.other "path parser: fuel exhausted".data)
  | _ + 1, [] => .ok []
  | fuel + 1, '.' :: rest =>
    let key := rest.takeWhile (fun c => ! (c == '.' || c == '['))
    let rest' := rest.dropWhile (fun c => ! (c == '.' || c == '['))
    if key.isEmpty then .error (.other "Empty key segment in path".data)
    else
      match parseSegsLoopF fuel rest' with
      | .error e => .error e
      | .ok segs => .ok (.key key :: segs)
  | fuel + 1, '[' :: rest =>
    let idxStr := rest.takeWhile (fun c => ! (c == ']'))
    let rest' := rest.dropWhile (fun c => ! (c == ']'))
    match parseNatStrict idxStr with
    | none => .error (.other ("Invalid array index in path: ".data ++ idxStr))
    | some idx =>
      let rest'' :=
        match rest' with
        | ']' :: r => r
        | r => r
      match parseSegsLoopF fuel rest'' with
      | .error e => .error e
      | .ok segs => .ok (.index idx :: segs)
  | _ + 1, c :: _ => .error (.other ("Unexpected character in path: ".data ++ [c]))

/-- `parse_path_segments`. -/
def parsePathSegments (path : List Char) : Except JsonError (List PathSegment) :=
  if path = ['$'] then .ok []
  else
    match path with
    | '$' :: tail => parseSegsLoopF (tail.length + 1) tail
    | _ => .error (.other ("Path must start with dollar: ".data ++ path))

/-- `query_path_segments` (immutable navigation). -/
def queryPathSegments : JValue → List PathSegment → Except JsonError JValue
  | v, [] => .ok v
  | v, .key k :: rest =>
    match v with
    | .obj entries =>
      match assocFind k entries with
      | some child => queryPathSegments child rest
      | none => .error (.other ("Key not found: ".data ++ k))
    | _ => .error (.other "Expected object but got non-object".data)
  | v, .index i :: rest =>
    match v with
    | .arr items =>
      match items[i]? with
      | some child => queryPathSegments child rest
      | none => .error (.other "Array index out of bounds".data)
    | _ => .error (.other "Expected array but got non-array".data)

/-- `query_path_segments_mut` followed by a write-back: navigate to the node,
apply `f`, rebuild the surrounding tree. -/
def updateAtSegments (v : JValue) (segs : List PathSegment)
    (f : JValue → Except JsonError JValue) : Except JsonError JValue :=
  match segs with
  | [] => f v
  | .key k :: rest =>
    match v with
    | .obj entries =>
      match assocFind k entries with
      | some child =>
        match updateAtSegments child rest f with
        | .error e => .error e
        | .ok child' => .ok (.obj (assocUpdate k child' entries))
      | none => .error (.other ("Key not found: ".data ++ k))
    | _ => .error (.other "Expected object but got non-object".data)
  | .index i :: rest =>
    match v with
    | .arr items =>
      match items[i]? with
      | some child =>
        match updateAtSegments child rest f with
        | .error e => .error e
        | .ok child' => .ok (.arr (items.set i child'))
      | none => .error (.other "Array index out of bounds".data)
    | _ => .error (.other "Expected array but got non-array".data)

/-- `serde_json::Map::insert` (preserve-order): replace in place, or append. -/
def objInsert (entries : List (List Char × JValue)) (k : List Char) (v : JValue) :
    List (List Char × JValue) :=
  if (assocFind k entries).isSome then assocUpdate k v entries else entries ++ [(k, v)]

/-- `set_path`. -/
def setPath (ast : JValue) (path : List Char) (value : JValue) : Except JsonError JValue :=
  match parsePathSegments path with
  | .error e => .error e
  | .ok segs =>
    match segs.getLast? with
    | none => .ok value
    | some lastSeg =>
      updateAtSegments ast segs.dropLast (fun parent =>
        match lastSeg with
        | .key k =>
          match parent with
          | .obj entries => .ok (.obj (objInsert entries k value))
          | _ => .error (.other "Expected object for set_path".data)
        | .index i =>
          match parent with
          | .arr items =>
            if i < items.length then .ok (.arr (items.set i value))
            else .error (.other "Array index out of bounds in set_path".data)
          | _ => .error (.other "Expected array for set_path".data))

/-- `insert_at_path`. -/
def insertAtPath (ast : JValue) (path : List Char) (key : Option (List Char))
    (index : Option Nat) (value : JValue) : Except JsonError JValue :=
  match parsePathSegments path with
  | .error e => .error e
  | .ok segs =>
    updateAtSegments ast segs (fun target =>
      match key with
      | some k =>
        match target with
        | .obj entries => .ok (.obj (objInsert entries k value))
        | _ => .error (.other "Cannot insert key into non-object".data)
      | none =>
        match target with
        | .arr items =>
          match index with
          | some idx =>
            if idx ≤ items.length then .ok (.arr (items.take idx ++ value :: items.drop idx))
            else .error (.other "Array insert index out of bounds".data)
          | none => .ok (.arr (items ++ [value]))
        | _ => .error (.other "Cannot insert into non-array".data))

/-- `delete_path`. -/
def deletePath (ast : JValue) (path : List Char) : Except JsonError JValue :=
  match parsePathSegments path with
  | .error e => .error e
  | .ok segs =>
    match segs.getLast? with
    | none => .error (.other "Cannot delete root".data)
    | some lastSeg =>
      updateAtSegments ast segs.dropLast (fun parent =>
        match lastSeg with
        | .key k =>
          match parent with
          | .obj entries => .ok (.obj (assocRemove k entries))
          | _ => .error (.other "Expected object for delete_path".data)
        | .index i =>
          match parent with
          | .arr items =>
            if i < items.length then .ok (.arr (items.take i ++ items.drop (i + 1)))
            else .error (.other "Array index out of bounds in delete_path".data)
          | _ => .error (.other "Expected array for delete_path".data))

inductive JsonEdit
  | setPathE (anchor : List Char) (value : JValue)
  | insertAtPathE (anchor : List Char) (key : Option (List Char)) (index : Option Nat)
      (value : JValue)
  | deletePathE (anchor : List Char)

def anchorOf : JsonEdit → List Char
  | .setPathE a _ => a
  | .insertAtPathE a _ _ _ => a
  | .deletePathE a => a

/-- The first-pass anchor validation of `apply_json_edits` for one edit. -/
def validateJsonEdit (ast : JValue) (e : JsonEdit) : Except JsonError Unit :=
  match parseAnchor (anchorOf e) with
  | .error err => .error err
  | .ok (path, expectedHash) =>
    match parsePathSegments path with
    | .error err => .error err
    | .ok segs =>
      match queryPathSegments ast segs with
      | .error err => .error err
      | .ok currentValue =>
        let currentHash := computeCanonicalHash currentValue
        if currentHash ≠ expectedHash then .error (.hashMismatch path expectedHash currentHash)
        else .ok ()

/-- First pass over the batch: first failing validation wins. -/
def validateAllJson (ast : JValue) : List JsonEdit → Option JsonError
  | [] => none
  | e :: rest =>
    match validateJsonEdit ast e with
    | .error err => some err
    | .ok () => validateAllJson ast rest

def applyOneJsonEdit (ast : JValue) (e : JsonEdit) : Except JsonError JValue :=
  match e with
  | .setPathE anchor value =>
    match parseAnchor anchor with
    | .error err => .error err
    | .ok (path, _) => setPath ast path value
  | .insertAtPathE anchor key index value =>
    match parseAnchor anchor with
    | .error err => .error err
    | .ok (path, _) => insertAtPath ast path key index value
  | .deletePathE anchor =>
    match parseAnchor anchor with
    | .error err => .error err
    | .ok (path, _) => deletePath ast path

/-- Second pass: apply the edits in input order to the clone. -/
def applyAllJson (ast : JValue) : List JsonEdit → Except JsonError JValue
  | [] => .ok ast
  | e :: rest =>
    match applyOneJsonEdit ast e with
    | .error err => .error err
    | .ok ast' => applyAllJson ast' rest

/-- `apply_json_edits` on a `&mut` AST.  The first component of the result is
the AST the caller observes after the call: the input on any error, the
clone on full success. -/
def applyJsonEditsMut (ast : JValue) (edits : List JsonEdit) : JValue × Option JsonError :=
  match validateAllJson ast edits with
  | some err => (ast, some err)
  | none =>
    match applyAllJson ast edits with
    | .error err => (ast, some err)
    | .ok newAst => (newAst, none)

/-- The `child_path` construction of `format_json_with_anchors_inner`
(src/json.rs lines 559–565): object keys are always rendered in dot form. -/
def childPath (currentPath key : List Char) : List Char :=
  if currentPath = ['$'] then '$' :: '.' :: key else currentPath ++ '.' :: key

/-- The array-item path `format!("{}[{}]", current_path, index)`
(src/json.rs line 611). -/
def childIndexPath (currentPath : List Char) (index : Nat) : List Char :=
  currentPath ++ '[' :: (natToChars index ++ [']'])

/-- The path the formatter builds for a node reached through `segs`,
obtained by iterating `childPath`/`childIndexPath` from the root `$`. -/
def segPiece : PathSegment → List Char
  | .key k => '.' :: k
  | .index i => '[' :: (natToChars i ++ [']'])

def pathOfSegments (segs : List PathSegment) : List Char :=
  '$' :: concatAll (segs.map segPiece)

/-- Keys for which the formatter's dot-form rendering is unambiguous. -/
def wfSeg : PathSegment → Prop
  | .key k => k ≠ [] ∧ ∀ c ∈ k, c ≠ '.' ∧ c ≠ '['
  | .index _ => True

/-! ## Helper lemmas -/

theorem hexDigitChar_isLowerHex (m : Nat) : isLowerHexDigit (hexDigitChar m) = true := by
  unfold hexDigitChar
  split <;> decide

theorem toHex2_all_lowerHex (n : Nat) : (toHex2 n).all isLowerHexDigit = true := by
  simp [toHex2, hexDigitChar_isLowerHex]

theorem filter_stripCR (p : Char → Bool) (hp : p '\r' = false) (s : List Char) :
    (if s.getLast? = some '\r' then s.dropLast else s).filter p = s.filter p := by
  induction s using List.reverseRecOn with
  | nil => simp
  | append_singleton l a _ =>
    by_cases ha : a = '\r'
    · subst ha
      simp [List.getLast?_concat, List.dropLast_concat, List.filter_append, hp]
    · simp [List.getLast?_concat, ha]

theorem stripCR_eq_self_of_not_mem (s : List Char) (h : '\r' ∉ s) :
    (if s.getLast? = some '\r' then s.dropLast else s) = s := by
  rw [if_neg]
  intro hc
  exact h (List.mem_of_mem_getLast? hc)

theorem filter_idem (p : Char → Bool) (s : List Char) :
    (s.filter p).filter p = s.filter p := by
  induction s with
  | nil => rfl
  | cons c rest ih =>
    by_cases hc : p c = true
    · simp [List.filter_cons, hc, ih]
    · simp [List.filter_cons, hc, ih]

theorem cr_not_mem_strip (s : List Char) : '\r' ∉ s.filter (fun c => ! isUWs c) := by
  intro h
  exact absurd (List.of_mem_filter h) (by decide)

theorem computeLineHash_ws_invariant (i : Nat) (s : List Char) :
    computeLineHash i s = computeLineHash i (stripAllWhitespace s) := by
  unfold computeLineHash stripAllWhitespace
  dsimp only
  rw [stripCR_eq_self_of_not_mem _ (cr_not_mem_strip s), filter_idem,
    filter_stripCR _ (by decide) s]


/-! ### Unique-hash index characterization and validation lemmas (for C3) -/

theorem assocFind_cons {β : Type} (h : List Char) (e : List Char × β)
    (rest : List (List Char × β)) :
    assocFind h (e :: rest) = if e.1 = h then some e.2 else assocFind h rest := rfl

theorem assocRemove_cons {β : Type} (k : List Char) (e : List Char × β)
    (rest : List (List Char × β)) :
    assocRemove k (e :: rest) = if e.1 = k then rest else e :: assocRemove k rest := rfl

theorem assocFind_eq_none {β : Type} (k : List Char) (m : List (List Char × β))
    (h : k ∉ m.map Prod.fst) : assocFind k m = none := by
  induction m with
  | nil => rfl
  | cons e rest ih =>
    rw [List.map_cons] at h
    rw [assocFind_cons, if_neg (fun hc => h (List.mem_cons.mpr (.inl hc.symm)))]
    exact ih (fun hc => h (List.mem_cons.mpr (.inr hc)))

theorem mem_map_fst_remove {β : Type} (k x : List Char) (m : List (List Char × β))
    (h : x ∈ (assocRemove k m).map Prod.fst) : x ∈ m.map Prod.fst := by
  induction m with
  | nil => exact h
  | cons e rest ih =>
    rw [assocRemove_cons] at h
    rw [List.map_cons]
    by_cases he : e.1 = k
    · rw [if_pos he] at h
      exact List.mem_cons.mpr (.inr h)
    · rw [if_neg he, List.map_cons] at h
      rcases List.mem_cons.mp h with h1 | h2
      · exact List.mem_cons.mpr (.inl h1)
      · exact List.mem_cons.mpr (.inr (ih h2))

theorem nodup_map_fst_remove {β : Type} (k : List Char) (m : List (List Char × β))
    (hnd : (m.map Prod.fst).Nodup) : ((assocRemove k m).map Prod.fst).Nodup := by
  induction m with
  | nil => exact hnd
  | cons e rest ih =>
    rw [List.map_cons, List.nodup_cons] at hnd
    rw [assocRemove_cons]
    by_cases he : e.1 = k
    · rw [if_pos he]
      exact hnd.2
    · rw [if_neg he, List.map_cons, List.nodup_cons]
      exact ⟨fun hmem => hnd.1 (mem_map_fst_remove k e.1 rest hmem), ih hnd.2⟩

theorem assocFind_remove_self {β : Type} (k : List Char) (m : List (List Char × β))
    (hnd : (m.map Prod.fst).Nodup) : assocFind k (assocRemove k m) = none := by
  induction m with
  | nil => rfl
  | cons e rest ih =>
    rw [List.map_cons, List.nodup_cons] at hnd
    rw [assocRemove_cons]
    by_cases he : e.1 = k
    · rw [if_pos he]
      exact assocFind_eq_none k rest (fun hc => hnd.1 (he ▸ hc))
    · rw [if_neg he, assocFind_cons, if_neg he]
      exact ih hnd.2

theorem assocFind_remove_other {β : Type} (h k : List Char) (hne : h ≠ k)
    (m : List (List Char × β)) : assocFind h (assocRemove k m) = assocFind h m := by
  induction m with
  | nil => rfl
  | cons e rest ih =>
    rw [assocRemove_cons]
    by_cases he : e.1 = k
    · rw [if_pos he, assocFind_cons, if_neg (fun hc : e.1 = h => hne (hc ▸ he))]
    · rw [if_neg he, assocFind_cons, assocFind_cons]
      by_cases heh : e.1 = h
      · rw [if_pos heh, if_pos heh]
      · rw [if_neg heh, if_neg heh]
        exact ih

theorem assocFind_isSome_of_mem {β : Type} (k : List Char) (m : List (List Char × β))
    (h : k ∈ m.map Prod.fst) : (assocFind k m).isSome := by
  induction m with
  | nil => simp at h
  | cons e rest ih =>
    rw [List.map_cons] at h
    rw [assocFind_cons]
    by_cases he : e.1 = k
    · rw [if_pos he]
      rfl
    · rw [if_neg he]
      rcases List.mem_cons.mp h with h1 | h2
      · exact absurd h1.symm he
      · exact ih h2

theorem pairOccs_cons (p : Nat × List Char) (l : List (Nat × List Char)) (h : List Char) :
    pairOccs (p :: l) h =
      (if computeLineHash (p.1 + 1) p.2 = h then [p.1 + 1] else []) ++ pairOccs l h := by
  unfold pairOccs
  rw [List.filter_cons]
  by_cases hc : computeLineHash (p.1 + 1) p.2 = h
  · rw [if_pos (by simp [hc]), if_pos hc]
    rfl
  · rw [if_neg (by simp [hc]), if_neg hc]
    rfl

/-- Invariant of the `unique_line_by_hash` construction fold: the map holds
exactly the hashes with a unique occurrence so far, and the duplicate set
exactly the hashes with two or more occurrences so far. -/
theorem uniqueIndexFold (l : List (Nat × List Char)) :
    ∀ (st : List (List Char × Nat) × List (List Char)) (occf : List Char → List Nat),
    (st.1.map Prod.fst).Nodup →
    (∀ h l', assocFind h st.1 = some l' ↔ occf h = [l']) →
    (∀ h, h ∈ st.2 ↔ 2 ≤ (occf h).length) →
    ((l.foldl uniqueIndexStep st).1.map Prod.fst).Nodup ∧
    (∀ h l', assocFind h (l.foldl uniqueIndexStep st).1 = some l' ↔
      occf h ++ pairOccs l h = [l']) ∧
    (∀ h, h ∈ (l.foldl uniqueIndexStep st).2 ↔ 2 ≤ (occf h ++ pairOccs l h).length) := by
  induction l with
  | nil =>
    intro st occf hnd hfind hdup
    refine ⟨hnd, fun h l' => ?_, fun h => ?_⟩
    · simp only [List.foldl_nil]
      rw [hfind]
      simp [pairOccs]
    · simp only [List.foldl_nil]
      rw [hdup]
      simp [pairOccs]
  | cons p rest ih =>
    intro st occf hnd hfind hdup
    set hp := computeLineHash (p.1 + 1) p.2 with hhp
    have hstep : uniqueIndexStep st p =
        (if hp ∈ st.2 then st
         else if (assocFind hp st.1).isSome then (assocRemove hp st.1, hp :: st.2)
         else ((hp, p.1 + 1) :: st.1, st.2)) := rfl
    have hocc : ∀ h, occf h ++ pairOccs (p :: rest) h =
        (occf h ++ (if hp = h then [p.1 + 1] else [])) ++ pairOccs rest h := by
      intro h
      rw [pairOccs_cons, ← List.append_assoc, hhp]
    have main : ((List.foldl uniqueIndexStep (uniqueIndexStep st p) rest).1.map Prod.fst).Nodup ∧
        (∀ h l', assocFind h (List.foldl uniqueIndexStep (uniqueIndexStep st p) rest).1 =
          some l' ↔ (occf h ++ (if hp = h then [p.1 + 1] else [])) ++ pairOccs rest h = [l']) ∧
        (∀ h, h ∈ (List.foldl uniqueIndexStep (uniqueIndexStep st p) rest).2 ↔
          2 ≤ ((occf h ++ (if hp = h then [p.1 + 1] else [])) ++ pairOccs rest h).length) := by
      apply ih (uniqueIndexStep st p) (fun h => occf h ++ (if hp = h then [p.1 + 1] else []))
      · -- Nodup preserved by the step
        rw [hstep]
        by_cases h2 : hp ∈ st.2
        · rw [if_pos h2]; exact hnd
        · rw [if_neg h2]
          by_cases h1 : (assocFind hp st.1).isSome
          · rw [if_pos h1]
            exact nodup_map_fst_remove hp st.1 hnd
          · rw [if_neg h1]
            simp only [List.map_cons, List.nodup_cons]
            exact ⟨fun hc => h1 (assocFind_isSome_of_mem hp st.1 hc), hnd⟩
      · -- find-iff after the step
        intro h l'
        rw [hstep]
        by_cases hh : hp = h
        · subst hh
          by_cases h2 : hp ∈ st.2
          · rw [if_pos h2]
            have hlen : 2 ≤ (occf hp).length := (hdup hp).mp h2
            constructor
            · intro hf
              have := (hfind hp l').mp hf
              rw [this] at hlen
              simp at hlen
            · intro hc
              have hlc := congrArg List.length hc
              simp only [List.length_append, List.length_cons, List.length_nil] at hlc
              omega
          · rw [if_neg h2]
            have hlt : (occf hp).length < 2 := by
              by_contra hc
              exact h2 ((hdup hp).mpr (by omega))
            by_cases h1 : (assocFind hp st.1).isSome
            · rw [if_pos h1]
              obtain ⟨l0, hl0⟩ := Option.isSome_iff_exists.mp h1
              have hocc0 : occf hp = [l0] := (hfind hp l0).mp hl0
              rw [assocFind_remove_self hp st.1 hnd]
              constructor
              · intro hc
                exact absurd hc (by simp)
              · intro hc
                have := congrArg List.length hc
                rw [hocc0] at this
                simp at this
            · rw [if_neg h1]
              have hnone : assocFind hp st.1 = none := by
                cases hfa : assocFind hp st.1 with
                | none => rfl
                | some v => rw [hfa] at h1; exact absurd (by simp) h1
              have hocc0 : occf hp = [] := by
                cases hocc1 : occf hp with
                | nil => rfl
                | cons a t =>
                  cases t with
                  | nil =>
                    have := (hfind hp a).mpr hocc1
                    rw [this] at hnone
                    exact absurd hnone (by simp)
                  | cons b t2 =>
                    rw [hocc1] at hlt
                    simp only [List.length_cons] at hlt
                    omega
              unfold assocFind
              rw [if_pos rfl, hocc0]
              simp [eq_comm]
        · -- h differs from the new hash
          have hocc1 : occf h ++ (if hp = h then [p.1 + 1] else []) = occf h := by
            rw [if_neg hh]
            simp
          rw [hocc1]
          by_cases h2 : hp ∈ st.2
          · rw [if_pos h2]
            exact hfind h l'
          · rw [if_neg h2]
            by_cases h1 : (assocFind hp st.1).isSome
            · rw [if_pos h1]
              rw [assocFind_remove_other h hp (fun hc => hh hc.symm) st.1]
              exact hfind h l'
            · rw [if_neg h1]
              unfold assocFind
              rw [if_neg (fun hc => hh hc)]
              exact hfind h l'
      · -- dup-set-iff after the step
        intro h
        rw [hstep]
        by_cases hh : hp = h
        · subst hh
          by_cases h2 : hp ∈ st.2
          · rw [if_pos h2]
            have hlen : 2 ≤ (occf hp).length := (hdup hp).mp h2
            simp [h2]
            omega
          · rw [if_neg h2]
            have hlt : (occf hp).length < 2 := by
              by_contra hc
              exact h2 ((hdup hp).mpr (by omega))
            by_cases h1 : (assocFind hp st.1).isSome
            · rw [if_pos h1]
              obtain ⟨l0, hl0⟩ := Option.isSome_iff_exists.mp h1
              have hocc0 : occf hp = [l0] := (hfind hp l0).mp hl0
              simp [hocc0]
            · rw [if_neg h1]
              have hnone : assocFind hp st.1 = none := by
                cases hfa : assocFind hp st.1 with
                | none => rfl
                | some v => rw [hfa] at h1; exact absurd (by simp) h1
              have hocc0 : occf hp = [] := by
                cases hocc1 : occf hp with
                | nil => rfl
                | cons a t =>
                  cases t with
                  | nil =>
                    have := (hfind hp a).mpr hocc1
                    rw [this] at hnone
                    exact absurd hnone (by simp)
                  | cons b t2 =>
                    rw [hocc1] at hlt
                    simp only [List.length_cons] at hlt
                    omega
              simp [hocc0, h2]
        · have hocc1 : occf h ++ (if hp = h then [p.1 + 1] else []) = occf h := by
            rw [if_neg hh]
            simp
          rw [hocc1]
          by_cases h2 : hp ∈ st.2
          · rw [if_pos h2]
            exact hdup h
          · rw [if_neg h2]
            by_cases h1 : (assocFind hp st.1).isSome
            · rw [if_pos h1]
              simp only [List.mem_cons]
              rw [hdup h]
              constructor
              · rintro (hc | hc)
                · exact absurd hc.symm hh
                · exact hc
              · exact fun hc => .inr hc
            · rw [if_neg h1]
              exact hdup h
    refine ⟨main.1, fun h l' => ?_, fun h => ?_⟩
    · rw [show List.foldl uniqueIndexStep st (p :: rest) =
        List.foldl uniqueIndexStep (uniqueIndexStep st p) rest from rfl, main.2.1 h l', hocc h]
    · rw [show List.foldl uniqueIndexStep st (p :: rest) =
        List.foldl uniqueIndexStep (uniqueIndexStep st p) rest from rfl, main.2.2 h, hocc h]

theorem buildUniqueIndex_lookup (fileLines : List (List Char)) (h : List Char) (l' : Nat) :
    assocFind h (buildUniqueIndex fileLines) = some l' ↔ linesWithHash fileLines h = [l'] := by
  have := uniqueIndexFold fileLines.enum ([], []) (fun _ => [])
    (by simp) (by intro h l'; simp [assocFind]) (by intro h; simp)
  unfold buildUniqueIndex linesWithHash
  rw [this.2.1 h l']
  simp

/-! ## Claim theorems -/

/-- C5: `compute_line_hash` ignores its line-index parameter, is invariant
under whitespace stripping (in particular under a trailing CR), always
returns exactly two lowercase hex digits, and reproduces the compatibility
vectors (empty → 05, hello → f9, world → b3, closing brace → 18,
spaced hello world = helloworld → 02). -/
theorem c5_line_hash_function :
    (∀ i j s, computeLineHash i s = computeLineHash j s) ∧
    (∀ i s, computeLineHash i s = computeLineHash i (stripAllWhitespace s)) ∧
    (∀ i s, computeLineHash i (s ++ ['\r']) = computeLineHash i s) ∧
    (∀ i s, (computeLineHash i s).length = 2 ∧
      (computeLineHash i s).all isLowerHexDigit = true) ∧
    computeLineHash 1 [] = "05".data ∧
    computeLineHash 1 "hello".data = "f9".data ∧
    computeLineHash 1 "world".data = "b3".data ∧
    computeLineHash 1 "\x7d".data = "18".data ∧
    computeLineHash 1 "  hello  world  ".data = "02".data ∧
    computeLineHash 1 "helloworld".data = "02".data := by
  refine ⟨fun i j s => rfl, computeLineHash_ws_invariant, ?_, ?_, by decide, by decide,
    by decide, by decide, by decide, by decide⟩
  · intro i s
    rw [computeLineHash_ws_invariant i (s ++ ['\r']), computeLineHash_ws_invariant i s]
    congr 1
    unfold stripAllWhitespace
    rw [List.filter_append]
    have h : ['\r'].filter (fun c => ! isUWs c) = [] := by decide
    rw [h, List.append_nil]
  · intro i s
    exact ⟨rfl, toHex2_all_lowerHex _⟩

/-- C9: the `hash` command output.  The `Commands::Hash` arm contains the
printing loop twice, so every input line produces two identical output
lines: on the one-line file `hello` the output is `1:f9` twice, and in
general the output has twice as many lines as the input — contradicting the
claim that each line appears exactly once. -/
theorem c9_hash_command_doubles_output :
    hashCommandOutput "hello".data = ["1:f9".data, "1:f9".data] ∧
    ∀ content : List Char,
      (hashCommandOutput content).length = 2 * (splitChar '\n' content).length := by
  constructor
  · decide
  · intro content
    unfold hashCommandOutput
    simp
    omega

/-- C10: the splice phase of `apply_hashline_edits` is not total: on the
three-line file `a / b / c` with a batch holding a whole-file range delete
and a set-line at line 3 — a batch that passes validation — the bottom-up
apply phase calls `Vec::splice` with range `2..3` on an already emptied
vector, an out-of-bounds panic (modelled by `none`). -/
theorem c10_splice_phase_out_of_bounds :
    applyHashlineEdits "a\nb\nc".data
      [.replaceLines "1:56".data (some "3:1b".data) (some []),
       .setLine "3:1b".data "x".data] = none := rfl

/-- C7 counterexample: an `InsertAfter` whose replacement is a single line
equal to the anchored line (file `aaa`, anchor `1:5f`, text `aaa`) is spliced
as-is — the result is the duplicated line `aaa\naaa` with an empty
`noop_edits` list — not recorded as a `NoopEdit` as the claim states. -/
theorem c7_counterexample :
    applyHashlineEdits "aaa".data [.insertAfter "1:5f".data (some "aaa".data) none] =
      some (.ok ⟨"aaa\naaa".data, some 2, [], []⟩) := rfl

/-- C7 amended: `strip_insert_anchor_echo_after` drops the echoed first
replacement line only when the replacement has at least two lines; a
replacement of at most one line is returned unchanged (so a single-line
whitespace-insensitive copy of the anchor is spliced, duplicating the line);
a non-empty replacement never becomes empty, so the splice arm's `NoopEdit`
branch is unreachable after validation promotes empty text to a blank line;
a multi-line replacement with an echoed first line has the rest spliced
immediately after the anchor line. -/
theorem c7_insert_after_echo_amended :
    (∀ a dst, dst.length ≤ 1 → stripInsertAnchorEchoAfter a dst = dst) ∧
    (∀ (a x : List Char) (rest : List (List Char)), 1 < (x :: rest).length →
      equalsIgnoringWhitespace x a = true →
      stripInsertAnchorEchoAfter a (x :: rest) = rest) ∧
    (∀ (a x : List Char) (rest : List (List Char)), equalsIgnoringWhitespace x a = false →
      stripInsertAnchorEchoAfter a (x :: rest) = x :: rest) ∧
    (∀ a dst, dst ≠ [] → stripInsertAnchorEchoAfter a dst ≠ []) ∧
    applyHashlineEdits "aaa".data [.insertAfter "1:5f".data (some "aaa\nNEW".data) none] =
      some (.ok ⟨"aaa\nNEW".data, some 2, [], []⟩) := by
  refine ⟨?_, ?_, ?_, ?_, rfl⟩
  · intro a dst h
    unfold stripInsertAnchorEchoAfter
    rw [if_pos h]
  · intro a x rest h he
    unfold stripInsertAnchorEchoAfter
    rw [if_neg (by omega), if_pos (by simpa using he)]
    rfl
  · intro a x rest he
    unfold stripInsertAnchorEchoAfter
    by_cases h : (x :: rest).length ≤ 1
    · rw [if_pos h]
    · rw [if_neg h, if_neg (by simpa using he)]
  · intro a dst hne
    unfold stripInsertAnchorEchoAfter
    by_cases h : dst.length ≤ 1
    · rw [if_pos h]; exact hne
    · by_cases he : equalsIgnoringWhitespace (dst.headD []) a = true
      · rw [if_neg h, if_pos he]
        intro hc
        have := congrArg List.length hc
        simp at this
        omega
      · rw [if_neg h, if_neg he]
        exact hne

/-! ### Decimal rendering and path round-trip lemmas (for C6) -/

theorem natToCharsAux_eq (n : Nat) : ∀ fuel acc, n < fuel →
    natToCharsAux fuel n acc = natToChars n ++ acc := by
  induction n using Nat.strong_induction_on with
  | _ n ih =>
    intro fuel acc hf
    match fuel, hf with
    | f + 1, _ =>
      by_cases h : n < 10
      · rw [natToCharsAux, if_pos h]
        rw [natToChars, natToCharsAux, if_pos h]
        rfl
      · have hpos : 0 < n := by omega
        have hdiv : n / 10 < n := Nat.div_lt_self hpos (by omega)
        rw [natToCharsAux, if_neg h, ih (n / 10) hdiv f _ (by omega)]
        conv_rhs => rw [natToChars]
        match n, h with
        | m + 10, _ =>
          rw [natToCharsAux, if_neg (by omega),
            ih ((m + 10) / 10) (by omega) (m + 10) _ (by omega)]
          simp

theorem natToChars_small (n : Nat) (h : n < 10) : natToChars n = [digitChar n] := by
  rw [natToChars, natToCharsAux, if_pos h]

theorem natToChars_rec (n : Nat) (h : ¬ n < 10) :
    natToChars n = natToChars (n / 10) ++ [digitChar (n % 10)] := by
  conv_lhs => rw [natToChars]
  match n, h with
  | m + 10, h =>
    rw [natToCharsAux, if_neg (by omega),
      natToCharsAux_eq ((m + 10) / 10) (m + 10) _ (by omega)]

theorem digitChar_isDigit (m : Nat) (h : m < 10) : isDigitChar (digitChar m) = true := by
  interval_cases m <;> decide

theorem natToChars_all_digits (n : Nat) : ∀ c ∈ natToChars n, isDigitChar c = true := by
  induction n using Nat.strong_induction_on with
  | _ n ih =>
    by_cases h : n < 10
    · rw [natToChars_small n h]
      intro c hc
      simp at hc
      subst hc
      exact digitChar_isDigit n h
    · rw [natToChars_rec n h]
      intro c hc
      rcases List.mem_append.mp hc with h1 | h2
      · exact ih (n / 10) (Nat.div_lt_self (by omega) (by omega)) c h1
      · simp at h2
        subst h2
        exact digitChar_isDigit (n % 10) (Nat.mod_lt n (by omega))

theorem natToChars_ne_nil (n : Nat) : natToChars n ≠ [] := by
  by_cases h : n < 10
  · rw [natToChars_small n h]; simp
  · rw [natToChars_rec n h]; simp

theorem digitsToNat_append_one (s : List Char) (c : Char) :
    digitsToNat (s ++ [c]) = digitsToNat s * 10 + (c.toNat - 48) := by
  unfold digitsToNat
  rw [List.foldl_append]
  rfl

theorem digitChar_toNat (m : Nat) (h : m < 10) : (digitChar m).toNat - 48 = m := by
  interval_cases m <;> decide

theorem digitsToNat_natToChars (n : Nat) : digitsToNat (natToChars n) = n := by
  induction n using Nat.strong_induction_on with
  | _ n ih =>
    by_cases h : n < 10
    · rw [natToChars_small n h]
      have : ([] : List Char) ++ [digitChar n] = [digitChar n] := rfl
      rw [← this, digitsToNat_append_one, digitChar_toNat n h]
      simp [digitsToNat]
    · rw [natToChars_rec n h, digitsToNat_append_one,
        ih (n / 10) (Nat.div_lt_self (by omega) (by omega)),
        digitChar_toNat (n % 10) (Nat.mod_lt n (by omega))]
      omega

theorem parseNatStrict_natToChars (n : Nat) : parseNatStrict (natToChars n) = some n := by
  unfold parseNatStrict
  rw [if_pos ⟨natToChars_ne_nil n, List.all_eq_true.mpr (natToChars_all_digits n)⟩,
    digitsToNat_natToChars]

theorem takeWhile_append_of (p : Char → Bool) (a b : List Char)
    (ha : ∀ c ∈ a, p c = true)
    (hb : b = [] ∨ ∃ c r, b = c :: r ∧ p c = false) :
    (a ++ b).takeWhile p = a ∧ (a ++ b).dropWhile p = b := by
  induction a with
  | nil =>
    rcases hb with h | ⟨c, r, rfl, hc⟩
    · subst h; simp
    · simp [List.takeWhile_cons, List.dropWhile_cons, hc]
  | cons x xs ih =>
    have hx := ha x (by simp)
    have := ih (fun c hc => ha c (by simp [hc]))
    simp [List.takeWhile_cons, List.dropWhile_cons, hx, this.1, this.2]

theorem concatAll_append {α : Type} (a b : List (List α)) :
    concatAll (a ++ b) = concatAll a ++ concatAll b := by
  induction a with
  | nil => rfl
  | cons x xs ih =>
    show x ++ concatAll (xs ++ b) = (x ++ concatAll xs) ++ concatAll b
    rw [ih, List.append_assoc]

theorem segPieces_head (rest : List PathSegment) :
    concatAll (rest.map segPiece) = [] ∨
    ∃ c r', concatAll (rest.map segPiece) = c :: r' ∧ (c = '.' ∨ c = '[') := by
  cases rest with
  | nil => left; rfl
  | cons s0 r =>
    right
    cases s0 with
    | key k => exact ⟨'.', _, rfl, .inl rfl⟩
    | index i => exact ⟨'[', _, rfl, .inr rfl⟩

theorem parseSegsLoop_pieces (segs : List PathSegment) (hw : ∀ s ∈ segs, wfSeg s) :
    ∀ fuel, (concatAll (segs.map segPiece)).length < fuel →
    parseSegsLoopF fuel (concatAll (segs.map segPiece)) = .ok segs := by
  induction segs with
  | nil =>
    intro fuel h
    match fuel, h with
    | f + 1, _ => rfl
  | cons sg rest ih =>
    intro fuel hf
    have hwr : ∀ s ∈ rest, wfSeg s := fun s hs => hw s (by simp [hs])
    match sg with
    | .key k =>
      obtain ⟨hk1, hk2⟩ := hw (.key k) (by simp)
      have hshape : concatAll ((PathSegment.key k :: rest).map segPiece) =
          '.' :: (k ++ concatAll (rest.map segPiece)) := by
        simp [concatAll, segPiece]
      rw [hshape] at hf ⊢
      match fuel, hf with
      | f + 1, hf =>
        have htk := takeWhile_append_of (fun c => ! (c == '.' || c == '[')) k
          (concatAll (rest.map segPiece))
          (fun c hc => by
            obtain ⟨h1, h2⟩ := hk2 c hc
            simp [h1, h2])
          (by
            rcases segPieces_head rest with h | ⟨c, r', heq, hc⟩
            · left; exact h
            · right
              exact ⟨c, r', heq, by rcases hc with rfl | rfl <;> rfl⟩)
        rw [parseSegsLoopF, htk.1, htk.2, if_neg (by simp [hk1])]
        have hlen : (concatAll (rest.map segPiece)).length < f := by
          have : 1 ≤ k.length := by
            cases k with
            | nil => exact absurd rfl hk1
            | cons _ _ => simp
          simp at hf
          omega
        rw [ih hwr f hlen]
    | .index i =>
      have hshape : concatAll ((PathSegment.index i :: rest).map segPiece) =
          '[' :: (natToChars i ++ (']' :: concatAll (rest.map segPiece))) := by
        simp [concatAll, segPiece]
      rw [hshape] at hf ⊢
      match fuel, hf with
      | f + 1, hf =>
        have htk := takeWhile_append_of (fun c => ! (c == ']')) (natToChars i)
          (']' :: concatAll (rest.map segPiece))
          (fun c hc => by
            have := natToChars_all_digits i c hc
            have hne : c ≠ ']' := by
              intro hceq
              subst hceq
              exact absurd this (by decide)
            simp [hne])
          (by right; exact ⟨']', _, rfl, by simp⟩)
        rw [parseSegsLoopF, htk.1, htk.2, parseNatStrict_natToChars]
        have hlen : (concatAll (rest.map segPiece)).length < f := by
          simp at hf
          omega
        show (match parseSegsLoopF f (concatAll (rest.map segPiece)) with
          | Except.error e => (Except.error e : Except JsonError (List PathSegment))
          | Except.ok segs => Except.ok (PathSegment.index i :: segs)) =
          Except.ok (PathSegment.index i :: rest)
        rw [ih hwr f hlen]

theorem pathOfSegments_parses (segs : List PathSegment) (hw : ∀ s ∈ segs, wfSeg s) :
    parsePathSegments (pathOfSegments segs) = .ok segs := by
  cases segs with
  | nil => rfl
  | cons s0 r =>
    have hne : concatAll ((s0 :: r).map segPiece) ≠ [] := by
      cases s0 <;> simp [concatAll, segPiece]
    unfold parsePathSegments pathOfSegments
    rw [if_neg (by simpa using hne)]
    exact parseSegsLoop_pieces (s0 :: r) hw _ (by omega)

/-- C6 counterexample: for the key `a.b` (which contains a dot) the anchor
formatter emits the dot form `$.a.b`, not the bracketed-quoted form; that
output parses back to the two segments `a`, `b` — not to the single key
`a.b` — and the parser rejects the bracketed-quoted form outright. -/
theorem c6_counterexample :
    childPath "$".data "a.b".data = "$.a.b".data ∧
    parsePathSegments "$.a.b".data = .ok [.key "a".data, .key "b".data] ∧
    [PathSegment.key "a.b".data] ≠ [.key "a".data, .key "b".data] ∧
    (parsePathSegments "$[\"a.b\"]".data).isOk = false := by
  exact ⟨rfl, rfl, by decide, rfl⟩

/-- C6 amended: the formatter always emits object keys in dot form and array
indices in bracket form; brackets are parsed only as non-negative integer
indices (the bracketed-quoted key form is not recognized); the round trip of
the formatter's output is accepted by the parser and yields exactly the
segments addressing the same node whenever every key on the path is
non-empty and contains neither `.` nor `[` — which covers keys containing
spaces, as the concrete `my key` instance shows. -/
theorem c6_path_round_trip_amended :
    (∀ segs, (∀ s ∈ segs, wfSeg s) → parsePathSegments (pathOfSegments segs) = .ok segs) ∧
    (∀ segs key, childPath (pathOfSegments segs) key = pathOfSegments (segs ++ [.key key])) ∧
    (∀ segs i, childIndexPath (pathOfSegments segs) i = pathOfSegments (segs ++ [.index i])) ∧
    parsePathSegments (childPath "$".data "my key".data) = .ok [.key "my key".data] ∧
    parsePathSegments "$[0]".data = .ok [.index 0] := by
  refine ⟨pathOfSegments_parses, ?_, ?_, rfl, rfl⟩
  · intro segs key
    cases segs with
    | nil => simp [childPath, pathOfSegments, concatAll, segPiece]
    | cons s0 r =>
      have hne : concatAll ((s0 :: r).map segPiece) ≠ [] := by
        cases s0 <;> simp [concatAll, segPiece]
      unfold childPath pathOfSegments
      rw [if_neg (by simpa using hne), List.map_append, concatAll_append]
      have h1 : concatAll (List.map segPiece [PathSegment.key key]) = '.' :: key := by
        simp [concatAll, segPiece]
      rw [h1]
      rfl
  · intro segs i
    unfold childIndexPath pathOfSegments
    rw [List.map_append, concatAll_append]
    have h1 : concatAll (List.map segPiece [PathSegment.index i]) =
        '[' :: (natToChars i ++ [']']) := by
      simp [concatAll, segPiece]
    rw [h1]
    rfl

/-- Accept case of `validate_or_relocate`. -/
theorem vr_accept (line : Nat) (hash : List Char) (fl : List (List Char))
    (uniq : List (List Char × Nat)) (hb : ¬ (line < 1 ∨ fl.length < line))
    (heq : computeLineHash line (fl.getD (line - 1) []) = toLowerStr hash) :
    validateOrRelocate line hash fl uniq = (line, none, true) := by
  unfold validateOrRelocate
  rw [if_neg hb]
  dsimp only
  rw [if_pos heq]

/-- Relocation case of `validate_or_relocate`. -/
theorem vr_relocate (line : Nat) (hash : List Char) (fl : List (List Char))
    (uniq : List (List Char × Nat)) (l : Nat) (hb : ¬ (line < 1 ∨ fl.length < line))
    (hne : computeLineHash line (fl.getD (line - 1) []) ≠ toLowerStr hash)
    (hfind : assocFind (toLowerStr hash) uniq = some l) :
    validateOrRelocate line hash fl uniq = (l, none, true) := by
  unfold validateOrRelocate
  rw [if_neg hb]
  dsimp only
  rw [if_neg hne, hfind]

/-- Mismatch case of `validate_or_relocate`. -/
theorem vr_fails (line : Nat) (hash : List Char) (fl : List (List Char))
    (uniq : List (List Char × Nat)) (hb : ¬ (line < 1 ∨ fl.length < line))
    (hne : computeLineHash line (fl.getD (line - 1) []) ≠ toLowerStr hash)
    (hfind : assocFind (toLowerStr hash) uniq = none) :
    validateOrRelocate line hash fl uniq =
      (line, some ⟨line, hash, computeLineHash line (fl.getD (line - 1) [])⟩, false) := by
  unfold validateOrRelocate
  rw [if_neg hb]
  dsimp only
  rw [if_neg hne, hfind]

/-- C3: validation/relocation of a (line, hash) pair — a matching hash
(compared after lowercasing the expected hash) is accepted at its line; a
stale hash found in the unique-hash index relocates the line to the unique
match; otherwise a `HashMismatch` with the original line and observed hash
is recorded.  The unique-hash index maps `h` to `l` exactly when `h` occurs
on exactly the one line `l` (duplicated hashes are excluded entirely), and
on the file `dup/mid/dup` with anchor `2:` plus the hash of `dup` (which
occurs twice, inhibiting relocation) the batch fails with a hash mismatch. -/
theorem c3_validate_or_relocate :
    (∀ (line : Nat) (hash : List Char) (fl : List (List Char))
      (uniq : List (List Char × Nat)),
      ¬ (line < 1 ∨ fl.length < line) →
      computeLineHash line (fl.getD (line - 1) []) = toLowerStr hash →
      validateOrRelocate line hash fl uniq = (line, none, true)) ∧
    (∀ (line : Nat) (hash : List Char) (fl : List (List Char))
      (uniq : List (List Char × Nat)) (l : Nat),
      ¬ (line < 1 ∨ fl.length < line) →
      computeLineHash line (fl.getD (line - 1) []) ≠ toLowerStr hash →
      assocFind (toLowerStr hash) uniq = some l →
      validateOrRelocate line hash fl uniq = (l, none, true)) ∧
    (∀ (line : Nat) (hash : List Char) (fl : List (List Char))
      (uniq : List (List Char × Nat)),
      ¬ (line < 1 ∨ fl.length < line) →
      computeLineHash line (fl.getD (line - 1) []) ≠ toLowerStr hash →
      assocFind (toLowerStr hash) uniq = none →
      validateOrRelocate line hash fl uniq =
        (line, some ⟨line, hash, computeLineHash line (fl.getD (line - 1) [])⟩, false)) ∧
    (∀ (fl : List (List Char)) (h : List Char) (l' : Nat),
      assocFind h (buildUniqueIndex fl) = some l' ↔ linesWithHash fl h = [l']) ∧
    applyHashlineEdits "dup\nmid\ndup".data [.setLine "2:4c".data "x".data] =
      some (.error (.mismatchError [⟨2, "4c".data, "68".data⟩]
        ["dup".data, "mid".data, "dup".data])) :=
  ⟨vr_accept, vr_relocate, vr_fails, buildUniqueIndex_lookup, rfl⟩

/-- Instantiation of the C3 case analysis at concrete inputs: the matching
anchor `1:5f` on the one-line file `aaa` is accepted, and the stale anchor
`1:00` records a mismatch. -/
theorem c3_validate_or_relocate_witness :
    validateOrRelocate 1 "5f".data ["aaa".data] [] = (1, none, true) ∧
    validateOrRelocate 1 "00".data ["aaa".data] [] =
      (1, some ⟨1, "00".data, "5f".data⟩, false) :=
  ⟨c3_validate_or_relocate.1 1 "5f".data ["aaa".data] [] (by decide) (by decide),
   c3_validate_or_relocate.2.2.1 1 "00".data ["aaa".data] [] (by decide) (by decide) rfl⟩


/-- A non-relocatable stale reference pair makes the per-edit validation
record at least one mismatch. -/
theorem validateOneEdit_fail_ne_nil (fl : List (List Char)) (uniq : List (List Char × Nat))
    (p p' : ParsedEdit) (cs : List HashMismatch) (line : Nat) (hash : List Char)
    (hv : validateOneEdit fl uniq p = .ok (p', cs))
    (hmem : (line, hash) ∈ refPairs p.spec)
    (hfail : failsAt fl uniq line hash) : cs ≠ [] := by
  obtain ⟨hb, hne, hfind⟩ := hfail
  match p with
  | ⟨.single l h, dst⟩ =>
    simp only [refPairs, List.mem_singleton, Prod.mk.injEq] at hmem
    obtain ⟨rfl, rfl⟩ := hmem
    simp only [validateOneEdit] at hv
    rw [if_neg hb] at hv
    rw [vr_fails line hash fl uniq hb hne hfind] at hv
    simp only [Except.ok.injEq, Prod.mk.injEq] at hv
    rw [← hv.2]
    simp
  | ⟨.insertAfter l h, dst⟩ =>
    simp only [refPairs, List.mem_singleton, Prod.mk.injEq] at hmem
    obtain ⟨rfl, rfl⟩ := hmem
    simp only [validateOneEdit] at hv
    rw [if_neg hb] at hv
    rw [vr_fails line hash fl uniq hb hne hfind] at hv
    simp only [Except.ok.injEq, Prod.mk.injEq] at hv
    rw [← hv.2]
    simp
  | ⟨.range sl sh el eh, dst⟩ =>
    simp only [validateOneEdit] at hv
    by_cases hbs : sl < 1 ∨ fl.length < sl
    · rw [if_pos hbs] at hv
      exact absurd hv (by simp)
    · rw [if_neg hbs] at hv
      by_cases hbe : el < 1 ∨ fl.length < el
      · rw [if_pos hbe] at hv
        exact absurd hv (by simp)
      · rw [if_neg hbe] at hv
        by_cases hord : el < sl
        · rw [if_pos hord] at hv
          exact absurd hv (by simp)
        · rw [if_neg hord] at hv
          simp only [refPairs, List.mem_cons, List.mem_singleton, Prod.mk.injEq,
            List.not_mem_nil, or_false] at hmem
          rcases hmem with ⟨rfl, rfl⟩ | ⟨rfl, rfl⟩
          · rw [vr_fails line hash fl uniq hb hne hfind] at hv
            rw [show ((line, some (⟨line, hash,
              computeLineHash line (fl.getD (line - 1) [])⟩ : HashMismatch), false) :
              Nat × Option HashMismatch × Bool).2.2 = false from rfl] at hv
            rw [Bool.false_and, if_neg (by simp)] at hv
            simp only [Except.ok.injEq, Prod.mk.injEq] at hv
            rw [← hv.2]
            simp
          · rw [vr_fails line hash fl uniq hb hne hfind] at hv
            rw [show ((line, some (⟨line, hash,
              computeLineHash line (fl.getD (line - 1) [])⟩ : HashMismatch), false) :
              Nat × Option HashMismatch × Bool).2.2 = false from rfl] at hv
            rw [Bool.and_false, if_neg (by simp)] at hv
            simp only [Except.ok.injEq, Prod.mk.injEq] at hv
            rw [← hv.2]
            simp

/-- The batch mismatch list contains each edit's recorded mismatches: if a
member edit records any, the batch list is non-empty. -/
theorem validateEdits_contrib (fl : List (List Char)) (uniq : List (List Char × Nat)) :
    ∀ (parsed parsed' : List (Nat × ParsedEdit)) (ms : List HashMismatch)
      (i : Nat) (p : ParsedEdit),
    validateEdits fl uniq parsed = .ok (parsed', ms) →
    (i, p) ∈ parsed →
    ∃ p' cs, validateOneEdit fl uniq p = .ok (p', cs) ∧ (cs ≠ [] → ms ≠ []) := by
  intro parsed
  induction parsed with
  | nil =>
    intro parsed' ms i p _ hmem
    exact absurd hmem (List.not_mem_nil _)
  | cons jq rest ih =>
    intro parsed' ms i p hv hmem
    unfold validateEdits at hv
    cases hone : validateOneEdit fl uniq jq.2 with
    | error e =>
      rw [hone] at hv
      exact absurd hv (by simp)
    | ok qcs =>
      rw [hone] at hv
      cases hrest : validateEdits fl uniq rest with
      | error e =>
        rw [hrest] at hv
        exact absurd hv (by simp)
      | ok restms =>
        rw [hrest] at hv
        simp only [Except.ok.injEq, Prod.mk.injEq] at hv
        rcases List.mem_cons.mp hmem with heq | hmemr
        · have hp : p = jq.2 := by rw [← heq]
          refine ⟨qcs.1, qcs.2, by rw [hp]; exact hone, fun hcs => ?_⟩
          rw [← hv.2]
          intro hc
          rw [List.append_eq_nil] at hc
          exact hcs hc.1
        · obtain ⟨p', cs, hone', himp⟩ := ih restms.1 restms.2 i p hrest hmemr
          refine ⟨p', cs, hone', fun hcs => ?_⟩
          rw [← hv.2]
          intro hc
          rw [List.append_eq_nil] at hc
          exact himp hcs hc.2

/-- When validation records mismatches, `apply_hashline_edits` aborts with a
`HashlineMismatchError` carrying exactly those mismatches and the file
snapshot. -/
theorem applyHashlineEdits_mismatch (content : List Char) (edits : List HashlineEdit)
    (parsed parsed' : List (Nat × ParsedEdit)) (ms : List HashMismatch)
    (hne : edits ≠ [])
    (hparse : parseAllEdits 0 edits = .ok parsed)
    (hval : validateEdits (splitChar '\n' content)
      (buildUniqueIndex (splitChar '\n' content)) parsed = .ok (parsed', ms))
    (hms : ms ≠ []) :
    applyHashlineEdits content edits =
      some (.error (.mismatchError ms (splitChar '\n' content))) := by
  unfold applyHashlineEdits
  rw [if_neg (by simpa using hne)]
  dsimp only
  rw [hparse]
  dsimp only
  rw [hval]
  dsimp only
  rw [if_pos hms]

/-- C1: text-batch atomicity on stale anchors.  If all edits parse and all
referenced lines are in bounds (so validation completes) and some edit holds
a reference pair whose hash does not match its line (case-insensitively) and
is absent from the unique-hash index, then `apply_hashline_edits` returns
the `HashlineMismatchError` carrying all recorded mismatches together with
the full file-lines snapshot — in particular no splice is performed and no
modified content is produced. -/
theorem c1_text_batch_atomicity (content : List Char) (edits : List HashlineEdit)
    (parsed parsed' : List (Nat × ParsedEdit)) (ms : List HashMismatch)
    (i : Nat) (p : ParsedEdit) (line : Nat) (hash : List Char)
    (hne : edits ≠ [])
    (hparse : parseAllEdits 0 edits = .ok parsed)
    (hval : validateEdits (splitChar '\n' content)
      (buildUniqueIndex (splitChar '\n' content)) parsed = .ok (parsed', ms))
    (hmem : (i, p) ∈ parsed)
    (hpair : (line, hash) ∈ refPairs p.spec)
    (hfail : failsAt (splitChar '\n' content)
      (buildUniqueIndex (splitChar '\n' content)) line hash) :
    applyHashlineEdits content edits =
      some (.error (.mismatchError ms (splitChar '\n' content))) ∧ ms ≠ [] := by
  obtain ⟨p', cs, hone, himp⟩ :=
    validateEdits_contrib (splitChar '\n' content)
      (buildUniqueIndex (splitChar '\n' content)) parsed parsed' ms i p hval hmem
  have hcs : cs ≠ [] :=
    validateOneEdit_fail_ne_nil _ _ p p' cs line hash hone hpair hfail
  have hms : ms ≠ [] := himp hcs
  exact ⟨applyHashlineEdits_mismatch content edits parsed parsed' ms hne hparse hval hms,
    hms⟩

/-- Instantiation of C1 at a concrete batch: the stale anchor `1:00` on the
file `aaa/bbb` aborts the batch with the recorded mismatch and the file
snapshot, leaving the content unmodified. -/
theorem c1_text_batch_atomicity_witness :
    applyHashlineEdits "aaa\nbbb".data [.setLine "1:00".data "x".data] =
      some (.error (.mismatchError [⟨1, "00".data, "5f".data⟩]
        ["aaa".data, "bbb".data])) ∧
    ([⟨1, "00".data, "5f".data⟩] : List HashMismatch) ≠ [] :=
  c1_text_batch_atomicity "aaa\nbbb".data [.setLine "1:00".data "x".data]
    [(0, ⟨.single 1 "00".data, ["x".data]⟩)] [(0, ⟨.single 1 "00".data, ["x".data]⟩)]
    [⟨1, "00".data, "5f".data⟩] 0 ⟨.single 1 "00".data, ["x".data]⟩ 1 "00".data
    (by decide) rfl rfl (by decide) (by decide) ⟨by decide, by decide, rfl⟩


/-- C4: the range relocation scope guard.  When both endpoints of a
`ReplaceLines` range pass validation through relocation, both were actually
moved, and the relocated range is invalid (start past end) or spans a
different number of lines, validation restores the original endpoints and
records `HashMismatch` entries for both of them — and consequently any batch
containing such an edit fails with the `HashlineMismatchError` rather than
silently applying a range of different scope. -/
theorem c4_range_scope_guard
    (fl : List (List Char)) (uniq : List (List Char × Nat)) (dst : List (List Char))
    (sl el sl' el' : Nat) (sh eh : List Char)
    (hbs : ¬ (sl < 1 ∨ fl.length < sl)) (hbe : ¬ (el < 1 ∨ fl.length < el))
    (hord : ¬ (el < sl))
    (hrs : validateOrRelocate sl sh fl uniq = (sl', none, true))
    (hre : validateOrRelocate el eh fl uniq = (el', none, true))
    (hsl : sl' ≠ sl) (_hel : el' ≠ el)
    (hbad : el' < sl' ∨ el' - sl' + 1 ≠ el - sl + 1) :
    validateOneEdit fl uniq ⟨.range sl sh el eh, dst⟩ =
      .ok (⟨.range sl sh el eh, dst⟩,
        [⟨sl, sh, computeLineHash sl (fl.getD (sl - 1) [])⟩,
         ⟨el, eh, computeLineHash el (fl.getD (el - 1) [])⟩]) ∧
    (∀ (content : List Char) (edits : List HashlineEdit)
      (parsed parsed' : List (Nat × ParsedEdit)) (ms : List HashMismatch) (i : Nat),
      edits ≠ [] →
      parseAllEdits 0 edits = .ok parsed →
      fl = splitChar '\n' content →
      uniq = buildUniqueIndex (splitChar '\n' content) →
      validateEdits fl uniq parsed = .ok (parsed', ms) →
      (i, (⟨.range sl sh el eh, dst⟩ : ParsedEdit)) ∈ parsed →
      applyHashlineEdits content edits =
        some (.error (.mismatchError ms (splitChar '\n' content))) ∧ ms ≠ []) := by
  have hone : validateOneEdit fl uniq ⟨.range sl sh el eh, dst⟩ =
      .ok (⟨.range sl sh el eh, dst⟩,
        [⟨sl, sh, computeLineHash sl (fl.getD (sl - 1) [])⟩,
         ⟨el, eh, computeLineHash el (fl.getD (el - 1) [])⟩]) := by
    simp only [validateOneEdit]
    rw [if_neg hbs, if_neg hbe, if_neg hord, hrs, hre]
    rw [show (((sl', none, true) : Nat × Option HashMismatch × Bool).2.2 &&
      ((el', none, true) : Nat × Option HashMismatch × Bool).2.2) = true from rfl]
    rw [if_pos rfl, if_pos ⟨Or.inl hsl, hbad⟩]
    rfl
  refine ⟨hone, ?_⟩
  intro content edits parsed parsed' ms i hne hparse hfl huniq hval hmem
  obtain ⟨p', cs, hone', himp⟩ :=
    validateEdits_contrib fl uniq parsed parsed' ms i ⟨.range sl sh el eh, dst⟩ hval hmem
  rw [hone] at hone'
  simp only [Except.ok.injEq, Prod.mk.injEq] at hone'
  have hcs : cs ≠ [] := by
    rw [← hone'.2]
    simp
  have hms : ms ≠ [] := himp hcs
  subst hfl
  subst huniq
  exact ⟨applyHashlineEdits_mismatch content edits parsed parsed' ms hne hparse hval hms,
    hms⟩

/-- Instantiation of C4: on the file `aaa/bbb/ccc/ddd`, the range anchors
`2:5f` and `3:fd` relocate to lines 1 and 4 (a four-line span instead of
two), so validation restores lines 2 and 3 and the batch fails with both
mismatches recorded. -/
theorem c4_range_scope_guard_witness :
    validateOneEdit (splitChar '\n' "aaa\nbbb\nccc\nddd".data)
      (buildUniqueIndex (splitChar '\n' "aaa\nbbb\nccc\nddd".data))
      ⟨.range 2 "5f".data 3 "fd".data, ["Z".data]⟩ =
      .ok (⟨.range 2 "5f".data 3 "fd".data, ["Z".data]⟩,
        [⟨2, "5f".data, "67".data⟩, ⟨3, "fd".data, "00".data⟩]) ∧
    (applyHashlineEdits "aaa\nbbb\nccc\nddd".data
        [.replaceLines "2:5f".data (some "3:fd".data) (some "Z".data)] =
      some (.error (.mismatchError [⟨2, "5f".data, "67".data⟩, ⟨3, "fd".data, "00".data⟩]
        (splitChar '\n' "aaa\nbbb\nccc\nddd".data))) ∧
      ([⟨2, "5f".data, "67".data⟩, ⟨3, "fd".data, "00".data⟩] : List HashMismatch) ≠ []) := by
  have h := c4_range_scope_guard
    (splitChar '\n' "aaa\nbbb\nccc\nddd".data)
    (buildUniqueIndex (splitChar '\n' "aaa\nbbb\nccc\nddd".data))
    ["Z".data] 2 3 1 4 "5f".data "fd".data
    (by decide) (by decide) (by decide) rfl rfl (by decide) (by decide)
    (Or.inr (by decide))
  exact ⟨h.1, h.2 "aaa\nbbb\nccc\nddd".data
    [.replaceLines "2:5f".data (some "3:fd".data) (some "Z".data)]
    [(0, ⟨.range 2 "5f".data 3 "fd".data, ["Z".data]⟩)]
    [(0, ⟨.range 2 "5f".data 3 "fd".data, ["Z".data]⟩)]
    [⟨2, "5f".data, "67".data⟩, ⟨3, "fd".data, "00".data⟩] 0
    (by decide) rfl rfl rfl rfl (by decide)⟩


/-- Fuel irrelevance for the non-overlapping match count (non-empty
pattern). -/
theorem countMatchesAux_fuel (pat : List Char) (hpat : pat ≠ []) :
    ∀ (n : Nat) (hay : List Char) (fuel : Nat), hay.length < fuel → hay.length ≤ n →
    countMatchesAux fuel hay pat = countMatches hay pat := by
  intro n
  induction n with
  | zero =>
    intro hay fuel hf hn
    have : hay = [] := by
      cases hay with
      | nil => rfl
      | cons c r => simp at hn
    subst this
    match fuel, hf with
    | f + 1, _ =>
      unfold countMatches
      rw [countMatchesAux, countMatchesAux]
      cases hfs : findSubstring [] pat with
      | none => rfl
      | some i =>
        unfold findSubstring at hfs
        rw [if_neg (by simpa using hpat)] at hfs
        exact absurd hfs (by simp)
  | succ n ih =>
    intro hay fuel hf hn
    match fuel, hf with
    | f + 1, hf =>
      unfold countMatches
      rw [countMatchesAux, countMatchesAux]
      cases hfs : findSubstring hay pat with
      | none => rfl
      | some i =>
        have hhay : hay ≠ [] := by
          intro hc
          subst hc
          unfold findSubstring at hfs
          rw [if_neg (by simpa using hpat)] at hfs
          exact absurd hfs (by simp)
        have hlen1 : 1 ≤ hay.length := by
          cases hay with
          | nil => exact absurd rfl hhay
          | cons c r => simp
        have hplen : 1 ≤ pat.length := by
          cases pat with
          | nil => exact absurd rfl hpat
          | cons c r => simp
        have hdrop : (hay.drop (i + pat.length)).length ≤ hay.length - 1 := by
          rw [List.length_drop]
          omega
        show 1 + countMatchesAux f (hay.drop (i + pat.length)) pat =
          1 + countMatchesAux hay.length (hay.drop (i + pat.length)) pat
        rw [ih (hay.drop (i + pat.length)) f (by omega) (by omega),
          ih (hay.drop (i + pat.length)) hay.length (by omega) (by omega)]

/-- C8: the substring-replace engine.  An empty `old_text` is rejected; a
missing `old_text` fails the batch; more than one occurrence fails with the
total match count; otherwise exactly the first occurrence is replaced and
`first_changed_line` becomes the minimum 1-indexed line of any match
position; edits are sequential, each seeing the output of the previous
one. -/
theorem c8_substring_replace :
    (∀ (st : List Char × Nat × Option Nat) (newText : List Char),
      applyReplaceStep st (.replace [] newText) = .error .emptyOldText) ∧
    (∀ (st : List Char × Nat × Option Nat) (oldText newText : List Char),
      oldText ≠ [] → findSubstring st.1 oldText = none →
      applyReplaceStep st (.replace oldText newText) = .error (.notFound oldText)) ∧
    (∀ (st : List Char × Nat × Option Nat) (oldText newText : List Char) (pos : Nat),
      oldText ≠ [] → findSubstring st.1 oldText = some pos →
      0 < countMatches (st.1.drop (pos + oldText.length)) oldText →
      applyReplaceStep st (.replace oldText newText) =
        .error (.ambiguous (countMatches (st.1.drop (pos + oldText.length)) oldText + 1)
          oldText)) ∧
    (∀ (hay oldText : List Char) (pos : Nat),
      oldText ≠ [] → findSubstring hay oldText = some pos →
      countMatches hay oldText =
        countMatches (hay.drop (pos + oldText.length)) oldText + 1) ∧
    (∀ (st : List Char × Nat × Option Nat) (oldText newText : List Char) (pos : Nat),
      oldText ≠ [] → findSubstring st.1 oldText = some pos →
      countMatches (st.1.drop (pos + oldText.length)) oldText = 0 →
      applyReplaceStep st (.replace oldText newText) =
        .ok (st.1.take pos ++ newText ++ st.1.drop (pos + oldText.length), st.2.1 + 1,
          some (min (st.2.2.getD (countChar '\n' (st.1.take pos) + 1))
            (countChar '\n' (st.1.take pos) + 1)))) ∧
    (∀ (st : List Char × Nat × Option Nat) (e : HashlineEdit) (es : List HashlineEdit),
      List.foldlM applyReplaceStep st (e :: es) =
        applyReplaceStep st e >>= fun st2 => List.foldlM applyReplaceStep st2 es) ∧
    (∀ (content : List Char) (edits : List HashlineEdit) (st : List Char × Nat × Option Nat),
      edits.foldlM applyReplaceStep (content, 0, none) = .ok st →
      applyReplaceEdits content edits = .ok ⟨st.1, st.2.1, st.2.2⟩) := by
  refine ⟨?_, ?_, ?_, ?_, ?_, ?_, ?_⟩
  · intro st newText
    rfl
  · intro st oldText newText hne hfs
    simp only [applyReplaceStep]
    rw [if_neg (by simpa using hne), hfs]
  · intro st oldText newText pos hne hfs hdup
    simp only [applyReplaceStep]
    rw [if_neg (by simpa using hne), hfs]
    dsimp only
    rw [if_pos hdup]
  · intro hay oldText pos hne hfs
    have h1 : 1 ≤ oldText.length := by
      cases oldText with
      | nil => exact absurd rfl hne
      | cons c r => simp
    have hhay : hay ≠ [] := by
      intro hc
      subst hc
      unfold findSubstring at hfs
      rw [if_neg (by simpa using hne)] at hfs
      exact absurd hfs (by simp)
    have hlen1 : 1 ≤ hay.length := by
      cases hay with
      | nil => exact absurd rfl hhay
      | cons c r => simp
    have hfuel := countMatchesAux_fuel oldText hne hay.length
      (hay.drop (pos + oldText.length)) hay.length
      (by rw [List.length_drop]; omega)
      (by rw [List.length_drop]; omega)
    conv_lhs => unfold countMatches
    conv_lhs => rw [countMatchesAux]
    rw [hfs]
    show 1 + countMatchesAux hay.length (hay.drop (pos + oldText.length)) oldText =
      countMatches (hay.drop (pos + oldText.length)) oldText + 1
    rw [hfuel]
    omega
  · intro st oldText newText pos hne hfs hdup
    simp only [applyReplaceStep]
    rw [if_neg (by simpa using hne), hfs]
    dsimp only
    rw [if_neg (by omega)]
    congr 2
    cases hfirst : st.2.2 with
    | none => simp
    | some f =>
      simp only [Option.getD_some]
      by_cases hlt : countChar '\n' (st.1.take pos) + 1 < f
      · rw [if_pos hlt]
        congr 1
        rw [Nat.min_def, if_neg (by omega)]
      · rw [if_neg hlt]
        congr 1
        rw [Nat.min_def, if_pos (by omega)]
  · intro st e es
    rfl
  · intro content edits st hfold
    unfold applyReplaceEdits
    rw [hfold]

/-- Instantiation of C8 at a concrete replacement: in `foo bar foo` the
unique occurrence of `bar` is replaced and the first changed line is 1. -/
theorem c8_substring_replace_witness :
    applyReplaceStep ("foo bar foo".data, 0, none) (.replace "bar".data "qux".data) =
      .ok ("foo qux foo".data, 1, some 1) := by
  have h := c8_substring_replace.2.2.2.2.1 ("foo bar foo".data, 0, none)
    "bar".data "qux".data 4 (by decide) rfl (by decide)
  exact h


/-- The first-pass validation of `apply_json_edits` reports the first failing
edit: edits before it that validate cleanly are skipped over. -/
theorem validateAllJson_append (ast : JValue) :
    ∀ (pre : List JsonEdit) (e : JsonEdit) (post : List JsonEdit) (err : JsonError),
    (∀ q ∈ pre, validateJsonEdit ast q = .ok ()) →
    validateJsonEdit ast e = .error err →
    validateAllJson ast (pre ++ e :: post) = some err := by
  intro pre
  induction pre with
  | nil =>
    intro e post err _ he
    rw [List.nil_append]
    show (match validateJsonEdit ast e with
      | Except.error err => some err
      | Except.ok _ => validateAllJson ast post) = some err
    rw [he]
  | cons q rest ih =>
    intro e post err hpre he
    have hq : validateJsonEdit ast q = .ok () := hpre q (by simp)
    rw [List.cons_append]
    show (match validateJsonEdit ast q with
      | Except.error err => some err
      | Except.ok _ => validateAllJson ast (rest ++ e :: post)) = some err
    rw [hq]
    exact ih e post err (fun r hr => hpre r (by simp [hr])) he

/-- C2: JSON-batch atomicity.  Any failing `apply_json_edits` call — hash
mismatch during the validate-all-anchors-first pass or a mid-apply failure —
leaves the caller's AST equal to the pre-call state; the first stale anchor
(after clean earlier edits) produces the typed mismatch error carrying the
path, the expected hash and the actual canonical hash; on success the result
is exactly the clone produced by applying all edits in input order.  The two
concrete batches exercise a stale second edit (first edit's target
untouched) and a mid-apply out-of-range delete. -/
theorem c2_json_batch_atomicity :
    (∀ (ast : JValue) (edits : List JsonEdit) (ast' : JValue) (e : JsonError),
      applyJsonEditsMut ast edits = (ast', some e) → ast' = ast) ∧
    (∀ (ast : JValue) (pre : List JsonEdit) (e : JsonEdit) (post : List JsonEdit)
      (path expectedHash : List Char) (segs : List PathSegment) (cur : JValue),
      (∀ q ∈ pre, validateJsonEdit ast q = .ok ()) →
      parseAnchor (anchorOf e) = .ok (path, expectedHash) →
      parsePathSegments path = .ok segs →
      queryPathSegments ast segs = .ok cur →
      computeCanonicalHash cur ≠ expectedHash →
      applyJsonEditsMut ast (pre ++ e :: post) =
        (ast, some (.hashMismatch path expectedHash (computeCanonicalHash cur)))) ∧
    (∀ (ast : JValue) (edits : List JsonEdit) (ast' : JValue),
      applyJsonEditsMut ast edits = (ast', none) → applyAllJson ast edits = .ok ast') ∧
    applyJsonEditsMut (.obj [("a".data, .num 1), ("b".data, .num 2)])
        [.setPathE "$.a:b2".data (.num 9), .setPathE "$.b:ff".data (.num 0)] =
      (.obj [("a".data, .num 1), ("b".data, .num 2)],
        some (.hashMismatch "$.b".data "ff".data "34".data)) ∧
    applyJsonEditsMut (.obj [("a".data, .arr [.num 1])])
        [.deletePathE "$.a[0]:b2".data, .deletePathE "$.a[0]:b2".data] =
      (.obj [("a".data, .arr [.num 1])],
        some (.other "Array index out of bounds in delete_path".data)) := by
  refine ⟨?_, ?_, ?_, rfl, rfl⟩
  · intro ast edits ast' e h
    unfold applyJsonEditsMut at h
    cases hv : validateAllJson ast edits with
    | some err =>
      rw [hv] at h
      exact (Prod.mk.injEq _ _ _ _ ▸ h).1.symm
    | none =>
      rw [hv] at h
      cases ha : applyAllJson ast edits with
      | error err =>
        rw [ha] at h
        exact (Prod.mk.injEq _ _ _ _ ▸ h).1.symm
      | ok newAst =>
        rw [ha] at h
        exact absurd (Prod.mk.injEq _ _ _ _ ▸ h).2 (by simp)
  · intro ast pre e post path expectedHash segs cur hpre hanchor hsegs hquery hne
    have he : validateJsonEdit ast e =
        .error (.hashMismatch path expectedHash (computeCanonicalHash cur)) := by
      unfold validateJsonEdit
      rw [hanchor]
      dsimp only
      rw [hsegs]
      dsimp only
      rw [hquery]
      dsimp only
      rw [if_pos hne]
    unfold applyJsonEditsMut
    rw [validateAllJson_append ast pre e post _ hpre he]
  · intro ast edits ast' h
    unfold applyJsonEditsMut at h
    cases hv : validateAllJson ast edits with
    | some err =>
      rw [hv] at h
      exact absurd (Prod.mk.injEq _ _ _ _ ▸ h).2 (by simp)
    | none =>
      rw [hv] at h
      cases ha : applyAllJson ast edits with
      | error err =>
        rw [ha] at h
        exact absurd (Prod.mk.injEq _ _ _ _ ▸ h).2 (by simp)
      | ok newAst =>
        rw [ha] at h
        have h2 : ((newAst, none) : JValue × Option JsonError) = (ast', none) := h
        have h3 : newAst = ast' := (Prod.mk.injEq _ _ _ _ ▸ h2).1
        rw [h3]

/-- Instantiation of C2 at the concrete batch whose first edit is valid and
whose second is stale: the typed mismatch is returned and the AST — in
particular the first edit's target — is unchanged. -/
theorem c2_json_batch_atomicity_witness :
    applyJsonEditsMut (.obj [("a".data, .num 1), ("b".data, .num 2)])
        [.setPathE "$.a:b2".data (.num 9), .setPathE "$.b:ff".data (.num 0)] =
      (.obj [("a".data, .num 1), ("b".data, .num 2)],
        some (.hashMismatch "$.b".data "ff".data "34".data)) := by
  have h := c2_json_batch_atomicity.2.1 (.obj [("a".data, .num 1), ("b".data, .num 2)])
    [.setPathE "$.a:b2".data (.num 9)] (.setPathE "$.b:ff".data (.num 0)) []
    "$.b".data "ff".data [.key "b".data] (.num 2)
    (by
      intro q hq
      rw [List.mem_singleton.mp hq]
      rfl)
    rfl rfl rfl (by decide)
  exact h


/-- Instantiation of C7's amended heuristic: a two-line replacement whose
first line echoes the anchor is stripped to its tail. -/
theorem c7_insert_after_echo_amended_witness :
    stripInsertAnchorEchoAfter "aaa".data ["aaa".data, "NEW".data] = ["NEW".data] :=
  c7_insert_after_echo_amended.2.1 "aaa".data "aaa".data ["NEW".data]
    (by decide) (by decide)

/-- Instantiation of C6's amended round trip: the formatter path for the
single well-formed key `a` parses back to that key. -/
theorem c6_path_round_trip_amended_witness :
    parsePathSegments (pathOfSegments [.key "a".data]) = .ok [.key "a".data] :=
  c6_path_round_trip_amended.1 [.key "a".data] (by
    intro sg hs
    rw [List.mem_singleton.mp hs]
    exact ⟨by decide, by decide⟩)


end Hashline
